import Mathlib

/-!
Verification of the storage-engine core of a small relational + matrix
database.  The engine ingests CSV data, partitions it into fixed-size
disk blocks, and executes commands over it.  This file gives a shallow
embedding of the core components — the `BufferManager` (fixed-capacity
FIFO pool of resident pages with read/write counters), the square-tile
`Matrix` blockifier with its transpose / symmetry / compute operations,
and the external-merge `Table` sort — and proves the specified
properties about them.

Machine integers of the original program are modelled as `Int`/`Nat`
(cell values never overflow in the statements proved here), page-name
strings as `String`, and the on-disk block store as a map from file
name to cell grid.
-/

namespace RelDB

/-! ### Page identity

`BufferManager::getPage` identifies a page by the string
`"../data/temp/" + tableName + "_Page" + to_string(pageIndex)`.
-/

/-- File name of the block `pageIndex` of the logical object `tableName`,
exactly as built in `BufferManager::getPage`. -/
def pageFileName (tableName : String) (pageIndex : Nat) : String :=
  "../data/temp/" ++ tableName ++ "_Page" ++ toString pageIndex

/-- A resident page of the buffer pool: its identifying file name, its
dirty flag and its cell grid. -/
structure BMPage where
  pageName : String
  dirty : Bool
  grid : List (List Int)
deriving DecidableEq

/-- State of the `BufferManager` together with the block store it reads
from and writes to: the insertion-ordered list of resident pages, the two
I/O counters, and the on-disk contents (file name and cell grid). -/
structure BMState where
  pages : List BMPage
  blocksRead : Nat
  blocksWritten : Nat
  disk : String → List (List Int)

/-- Initial state: empty pool, zero counters (`BufferManager::BufferManager`). -/
def initState (disk : String → List (List Int)) : BMState :=
  { pages := [], blocksRead := 0, blocksWritten := 0, disk := disk }

/-- Linear scan of the pool for a page name (`BufferManager::inPool`). -/
def inPool (st : BMState) (pageName : String) : Bool :=
  st.pages.any (fun p => p.pageName == pageName)

/-- Write-back of the oldest resident page if dirty, then its removal;
this is the eviction branch of `BufferManager::insertIntoPool`
(`pages.front()` write-back and `pages.pop_front()`). -/
def evictFront (st : BMState) : BMState :=
  match st.pages with
  | [] => st
  | p :: rest =>
    if p.dirty then
      { st with
        pages := rest
        blocksWritten := st.blocksWritten + 1
        disk := fun n => if n = p.pageName then p.grid else st.disk n }
    else
      { st with pages := rest }

/-- `BufferManager::insertIntoPool`: increment `blocksRead`, construct the
page by reading its file, evict the oldest insertion when the pool holds
at least `B = BLOCK_COUNT` pages, and append the new page. -/
def insertIntoPool (B : Nat) (st : BMState) (tableName : String) (pageIndex : Nat) :
    BMPage × BMState :=
  let page : BMPage :=
    { pageName := pageFileName tableName pageIndex, dirty := false,
      grid := st.disk (pageFileName tableName pageIndex) }
  let st1 := { st with blocksRead := st.blocksRead + 1 }
  let st2 := if B ≤ st1.pages.length then evictFront st1 else st1
  (page, { st2 with pages := st2.pages ++ [page] })

/-- `BufferManager::getPage`: return the resident page whose name matches,
otherwise read it from disk through `insertIntoPool`. -/
def getPage (B : Nat) (st : BMState) (tableName : String) (pageIndex : Nat) :
    BMPage × BMState :=
  match st.pages.find? (fun p => p.pageName == pageFileName tableName pageIndex) with
  | some p => (p, st)
  | none => insertIntoPool B st tableName pageIndex

/-- `BufferManager::writePage`: increment `blocksWritten` and write a
transient page (`rowCount × colCount` cells of `rows`) straight to disk,
without touching the pool.  `Page::writePage` itself is not under `src/`;
its serialization of the first `rowCount` rows and `colCount` columns is
modelled from the spec's page serialization format. -/
def writePageBM (st : BMState) (tableName : String) (pageIndex : Nat)
    (rows : List (List Int)) (rowCount colCount : Nat) : BMState :=
  { st with
    blocksWritten := st.blocksWritten + 1
    disk := fun n =>
      if n = pageFileName tableName pageIndex
      then (rows.take rowCount).map (fun r => r.take colCount)
      else st.disk n }

/-- `BufferManager::renamePagesInMemory`: rewrite `pageName` of every
resident page whose `pageName` equals `oldName` (note: the comparison is
against the full page name, verbatim from the source). -/
def renamePagesInMemory (st : BMState) (oldName newName : String) : BMState :=
  { st with pages := st.pages.map (fun p =>
      if p.pageName == oldName then { p with pageName := newName } else p) }

/-- One operation against the buffer manager.  `markDirty` models a
consumer mutating a resident page through the borrow returned by
`getPage` (e.g. `Page::transpose` marking the page dirty);
`deleteFile` / `renameFile` are the disk-level helpers. -/
inductive BMOp where
  | get (tableName : String) (pageIndex : Nat)
  | write (tableName : String) (pageIndex : Nat)
      (rows : List (List Int)) (rowCount colCount : Nat)
  | markDirty (pageName : String) (grid : List (List Int))
  | renameInMemory (oldName newName : String)
  | deleteFile (fileName : String)
  | renameFile (oldName newName : String)

/-- Effect of one operation on the buffer-manager state. -/
def bmStep (B : Nat) (st : BMState) : BMOp → BMState
  | .get t i => (getPage B st t i).2
  | .write t i rows rc cc => writePageBM st t i rows rc cc
  | .markDirty n g =>
    { st with pages := st.pages.map (fun p =>
        if p.pageName == n then { p with dirty := true, grid := g } else p) }
  | .renameInMemory o n => renamePagesInMemory st o n
  | .deleteFile f =>
    { st with disk := fun x => if x = f then [] else st.disk x }
  | .renameFile o n =>
    { st with disk := fun x =>
        if x = n then st.disk o else if x = o then [] else st.disk x }

/-- Run a sequence of buffer-manager operations. -/
def bmRun (B : Nat) (st : BMState) (ops : List BMOp) : BMState :=
  ops.foldl (bmStep B) st

/-- Whether an operation is a `writePage` call. -/
def isWritePageOp : BMOp → Bool
  | .write _ _ _ _ _ => true
  | _ => false

/-- Whether executing `op` in state `st` evicts a dirty page: only a
`getPage` miss with a full pool whose oldest page is dirty does. -/
def dirtyEviction (B : Nat) (st : BMState) : BMOp → Bool
  | .get t i =>
    !(inPool st (pageFileName t i)) && decide (B ≤ st.pages.length) &&
      (match st.pages with
       | [] => false
       | p :: _ => p.dirty)
  | _ => false

/-! ### Matrix: tiles, transpose, symmetry, compute

`Matrix` stores an `N × N` matrix as `concurrentBlocks²` square tiles of
side `m` (smaller on the border), the tile `(i, j)` under linear page
index `i * concurrentBlocks + j`.  Tile contents are modelled as total
functions `Nat → Nat → Int`; only entries inside a tile's recorded
dimensions are ever referenced by the operations below.
-/

/-- Cell grid of one tile. -/
abbrev Grid := Nat → Nat → Int

/-- Logical content state of a loaded matrix: dimension `N`, tile side
`m`, `concurrentBlocks = ⌈N/m⌉`, the cached symmetry verdict
(`-1` unknown, `0` false, `1` true, as in the C++ `symmetric` member)
and the tile contents by linear block index. -/
structure MatrixBlocks where
  dimension : Nat
  m : Nat
  concurrentBlocks : Nat
  symmetric : Int
  blocks : Nat → Grid

/-- Cell `(r, c)` of the matrix under the block layout: block
`(r / m) * concurrentBlocks + (c / m)`, local cell `(r % m, c % m)`. -/
def cellOf (M : MatrixBlocks) (r c : Nat) : Int :=
  M.blocks ((r / M.m) * M.concurrentBlocks + (c / M.m)) (r % M.m) (c % M.m)

/-- Modelled from the spec: `Page::transpose()` (the `Page` class is not
under `src/`): in-place swap of `cells[i][j]` with `cells[j][i]` on a
square diagonal tile, whose net effect on the tile is the transpose. -/
def transposeGrid (g : Grid) : Grid := fun k l => g l k

/-- One iteration of the `Matrix::transpose` loops for indices `i ≤ j`:
for `i = j` the diagonal tile is transposed in place; for `i < j` the
pair of tiles `(i,j)` and `(j,i)` is swap-and-transposed
(`Page::transpose(Page*)` is not under `src/`; modelled from the spec:
A ← Bᵀ and B ← Aᵀ). -/
def transposePairStep (cb : Nat) (bl : Nat → Grid) (ij : Nat × Nat) : Nat → Grid :=
  fun idx =>
    if idx = ij.1 * cb + ij.2 then transposeGrid (bl (ij.2 * cb + ij.1))
    else if idx = ij.2 * cb + ij.1 then transposeGrid (bl (ij.1 * cb + ij.2))
    else bl idx

/-- Iteration order of `Matrix::transpose` (and of the corresponding
`Matrix::symmetry` / `Matrix::compute` loops): for each `i`, the diagonal
`(i,i)` then the pairs `(i,j)` for `j` from `i+1` to `concurrentBlocks - 1`. -/
def transposeIters (cb : Nat) : List (Nat × Nat) :=
  (List.range cb).flatMap (fun i =>
    (i, i) :: (List.range' (i + 1) (cb - (i + 1))).map (fun j => (i, j)))

/-- `Matrix::transpose`: no-op when `symmetric == 1` is cached, otherwise
transpose every diagonal tile in place and swap-and-transpose every
off-diagonal pair. -/
def transposeMatrix (M : MatrixBlocks) : MatrixBlocks :=
  if M.symmetric = 1 then M
  else { M with blocks :=
          ((transposeIters M.concurrentBlocks).foldl
            (transposePairStep M.concurrentBlocks) M.blocks) }

/-- The scan of `Matrix::symmetry` (cache miss path), loop for loop from
the source including the `l = k + 1` inner lower bounds.
`Cursor::getCell(k, l)` is not under `src/`; modelled from the spec as
the per-cell accessor of the tile the cursor is positioned on. -/
def symmetryScan (M : MatrixBlocks) : Bool :=
  (List.range M.concurrentBlocks).all fun i =>
    (List.range' i (M.concurrentBlocks - i)).all fun j =>
      if i = j then
        let lim := min M.m (M.dimension - i * M.m)
        (List.range lim).all fun k =>
          (List.range' (k + 1) (lim - (k + 1))).all fun l =>
            M.blocks (i * M.concurrentBlocks + j) k l
              == M.blocks (i * M.concurrentBlocks + j) l k
      else
        let limrow := min M.m (M.dimension - i * M.m)
        let limcol := min M.m (M.dimension - j * M.m)
        (List.range limrow).all fun k =>
          (List.range' (k + 1) (limcol - (k + 1))).all fun l =>
            M.blocks (i * M.concurrentBlocks + j) k l
              == M.blocks (j * M.concurrentBlocks + i) l k

/-- `Matrix::symmetry`: return the cached verdict when `symmetric != -1`,
otherwise scan and cache the boolean result. -/
def symmetry (M : MatrixBlocks) : Bool × MatrixBlocks :=
  if M.symmetric ≠ -1 then (M.symmetric == 1, M)
  else
    let r := symmetryScan M
    (r, { M with symmetric := if r then 1 else 0 })

/-- The asymmetric 16 × 16 input of the symmetry counterexample: all
cells zero except `cell(0, 15) = 1` and `cell(15, 0) = 2`. -/
def c4cells : Nat → Nat → Int := fun r c =>
  if r = 0 ∧ c = 15 then 1 else if r = 15 ∧ c = 0 then 2 else 0

/-- The counterexample matrix, blockified with the nominal
`BLOCK_SIZE = 1` tile side `m = 15` (so `concurrentBlocks = 2`),
symmetry not yet cached. -/
def c4M : MatrixBlocks :=
  { dimension := 16, m := 15, concurrentBlocks := 2, symmetric := -1,
    blocks := fun idx => fun k l =>
      c4cells ((idx / 2) * 15 + k) ((idx % 2) * 15 + l) }

/-- One `writePage` call issued by `Matrix::compute`. -/
structure PageWrite where
  owner : String
  idx : Nat
  grid : Grid

/-- Modelled from the spec: `Page::subtractTranspose()` on a diagonal
tile (the `Page` class is not under `src/`): `A ← A − Aᵀ`. -/
def subtractTransposeGrid (g : Grid) : Grid := fun k l => g k l - g l k

/-- Modelled from the spec: `Page::subtractTranspose(Page*)` on an
off-diagonal pair (the `Page` class is not under `src/`):
`(A, B) ← (A − Bᵀ, B − Aᵀ)`. -/
def subtractTransposePair (a b : Grid) : Grid × Grid :=
  (fun k l => a k l - b l k, fun k l => b k l - a l k)

/-- `Matrix::compute`: the sequence of `writePage` calls it issues, in
loop order.  Each iteration copies the source tile(s) out of the buffer
pool, applies subtract-transpose to the copies, renames the copies to
the new matrix's name (`setPageName`) and writes them; the source tiles
are never modified and never written. -/
def computeWrites (M : MatrixBlocks) (newName : String) : List PageWrite :=
  (List.range M.concurrentBlocks).flatMap fun i =>
    { owner := newName, idx := i * M.concurrentBlocks + i,
      grid := subtractTransposeGrid (M.blocks (i * M.concurrentBlocks + i)) } ::
    ((List.range' (i + 1) (M.concurrentBlocks - (i + 1))).flatMap fun j =>
      [{ owner := newName, idx := i * M.concurrentBlocks + j,
         grid := (subtractTransposePair (M.blocks (i * M.concurrentBlocks + j))
            (M.blocks (j * M.concurrentBlocks + i))).1 },
       { owner := newName, idx := j * M.concurrentBlocks + i,
         grid := (subtractTransposePair (M.blocks (i * M.concurrentBlocks + j))
            (M.blocks (j * M.concurrentBlocks + i))).2 }])

/-- Metadata of a `Matrix` object (the members set by the constructors). -/
structure MatrixMeta where
  sourceFileName : String
  matrixName : String
  originalMatrixName : String
  dimension : Nat
  blockCount : Nat
  symmetric : Int
  m : Nat
  concurrentBlocks : Nat
  dimsPerBlock : List (Nat × Nat)

/-- The assignment-form constructor `Matrix::Matrix(string, Matrix*)`:
a fresh temp source path and name, all layout metadata and the cached
`symmetric` verdict copied from the original matrix. -/
def matrixAssign (matrixName : String) (orig : MatrixMeta) : MatrixMeta :=
  { sourceFileName := "../data/temp/" ++ matrixName ++ ".csv"
    matrixName := matrixName
    originalMatrixName := matrixName
    dimension := orig.dimension
    blockCount := orig.blockCount
    symmetric := orig.symmetric
    m := orig.m
    concurrentBlocks := orig.concurrentBlocks
    dimsPerBlock := orig.dimsPerBlock }

/-- A concrete 2 × 2-tile matrix used to witness the transpose and
compute theorems. -/
def c5M : MatrixBlocks :=
  { dimension := 2, m := 1, concurrentBlocks := 2, symmetric := -1,
    blocks := fun idx => fun _ _ => (idx : Int) }

/-! ### Matrix blockify

`Matrix::blockDimensions` computes the tile side `m` as the integer
square root of `totalIntegers = (BLOCK_SIZE * 1000) / sizeof(int)`,
seeded by the float `sqrt` and corrected by two loops; `Matrix::blockify`
distributes each CSV row over a stripe of `concurrentBlocks` tile
buffers and flushes the stripe every `m` rows (and at EOF).
-/

/-- The first correction loop of `Matrix::blockDimensions`:
`while ((c + 1) * (c + 1) <= totalIntegers) c++;`. -/
def corrUp (T c : Nat) : Nat :=
  if h : (c + 1) * (c + 1) ≤ T then corrUp T (c + 1) else c
termination_by T + 1 - c
decreasing_by
  have hle : c + 1 ≤ (c + 1) * (c + 1) := Nat.le_mul_of_pos_left _ (by omega)
  omega

/-- The second correction loop of `Matrix::blockDimensions`:
`while (c * c > totalIntegers) c--;`. -/
def corrDown (T c : Nat) : Nat :=
  if h : T < c * c then corrDown T (c - 1) else c
termination_by c
decreasing_by
  have hc : c ≠ 0 := by
    rintro rfl
    simp at h
  omega

/-- `Matrix::blockDimensions`: fails when the corrected square root `m`
is zero, else returns `m` and `concurrentBlocks = ⌈dimension / m⌉`.  The
float `sqrt` seed is a parameter; the theorems below hold for every
seed, covering any floating-point drift. -/
def blockDimensions (T seed dimension : Nat) : Option (Nat × Nat) :=
  let c := corrDown T (corrUp T seed)
  if c = 0 then none
  else some (c, (dimension + c - 1) / c)

/-- One `bufferManager.writePage` call issued by `Matrix::blockify`,
with the row and column counts passed from the live counters (these are
also the entries recorded in `dimsPerBlock`). -/
structure BlockWrite where
  owner : String
  idx : Nat
  grid : Grid
  rowCount : Nat
  colCount : Nat

/-- The column count passed for the tile `i` of a stripe:
`(i == concurrentBlocks - 1 && dimension % m) ? dimension % m : m`. -/
def colSize (m cb N i : Nat) : Nat :=
  if i = cb - 1 ∧ N % m ≠ 0 then N % m else m

/-- The running state of `Matrix::blockify`: the stripe of
`concurrentBlocks` tile buffers (never cleared between stripes), the
live counters and the writes issued so far. -/
structure BlockifyState where
  grids : Nat → Nat → Nat → Int
  rowIndex : Nat
  rowsRead : Nat
  blockCount : Nat
  writes : List BlockWrite

/-- The `writeToBuffer` lambda of `Matrix::blockify`: one `writePage`
per tile of the stripe, with `rowIndex` rows and `colSize` columns,
block indices continuing from the running `blockCount`; then reset
`rowIndex`. -/
def stripeWrites (name : String) (m cb N : Nat) (g : Nat → Nat → Nat → Int)
    (bc ri : Nat) : List BlockWrite :=
  (List.range cb).map (fun i =>
    { owner := name
      idx := bc + i
      grid := g i
      rowCount := ri
      colCount := colSize m cb N i })

/-- Effect of the `writeToBuffer` lambda on the blockify state. -/
def writeToBuffer (name : String) (m cb N : Nat) (st : BlockifyState) :
    BlockifyState :=
  { grids := st.grids
    rowIndex := 0
    rowsRead := st.rowsRead
    blockCount := st.blockCount + cb
    writes := st.writes ++ stripeWrites name m cb N st.grids st.blockCount st.rowIndex }

/-- One cell assignment
`grids[columnCounter / m][rowIndex][columnCounter % m] = stoi(word)`. -/
def gridCellUpdate (g : Nat → Nat → Nat → Int) (t k l : Nat) (v : Int) :
    Nat → Nat → Nat → Int :=
  fun t' k' l' => if t' = t ∧ k' = k ∧ l' = l then v else g t' k' l'

/-- The inner `columnCounter` loop of `Matrix::blockify` on one CSV row:
cell `c` goes to tile `c / m`, local row `rowIndex`, local column `c % m`. -/
def distributeRow (m N : Nat) (row : List Int) (rowIndex : Nat)
    (g : Nat → Nat → Nat → Int) : Nat → Nat → Nat → Int :=
  (List.range N).foldl
    (fun acc c => gridCellUpdate acc (c / m) rowIndex (c % m) (row.getD c 0)) g

/-- The state `st1` after the cell-distribution and counter bumps of one
CSV line (`rowIndex++, rowsRead++`). -/
def blockifyRowState (m N : Nat) (st : BlockifyState) (row : List Int) :
    BlockifyState :=
  { st with
    grids := distributeRow m N row st.rowIndex st.grids
    rowIndex := st.rowIndex + 1
    rowsRead := st.rowsRead + 1 }

/-- Processing of one CSV line: distribute the cells, bump the counters,
flush the stripe when it has accumulated `m` rows
(`if (rowIndex == m) writeToBuffer();`). -/
def blockifyRow (name : String) (m cb N : Nat) (st : BlockifyState)
    (row : List Int) : BlockifyState :=
  if (blockifyRowState m N st row).rowIndex = m
  then writeToBuffer name m cb N (blockifyRowState m N st row)
  else blockifyRowState m N st row

/-- The `while (getline(fin, line))` loop of `Matrix::blockify`;
`none` models the `return false` taken when a row has fewer than
`dimension` comma-separated cells. -/
def blockifyLoop (name : String) (m cb N : Nat) :
    List (List Int) → BlockifyState → Option BlockifyState
  | [], st => some st
  | row :: rest, st =>
    if row.length < N then none
    else blockifyLoop name m cb N rest (blockifyRow name m cb N st row)

/-- Initial blockify state: the C++ stripe buffers are value-initialized
`vector<int>`s, hence all zero. -/
def initBlockify : BlockifyState :=
  { grids := fun _ _ _ => 0
    rowIndex := 0
    rowsRead := 0
    blockCount := 0
    writes := [] }

/-- `Matrix::blockify` on an already-split CSV (rows of integer cells):
compute the tile side, run the row loop, flush the final partial stripe,
and fail when no row was read. -/
def blockify (name : String) (T seed dimension : Nat)
    (rows : List (List Int)) : Option (List BlockWrite) :=
  match blockDimensions T seed dimension with
  | none => none
  | some (m, cb) =>
    match blockifyLoop name m cb dimension rows initBlockify with
    | none => none
    | some st =>
      let st' := if st.rowIndex ≠ 0 then writeToBuffer name m cb dimension st else st
      if st'.rowsRead ≠ 0 then some st'.writes else none

/-- Cell `(r, c)` of a CSV given as a list of rows. -/
def cellAt (rows : List (List Int)) (r c : Nat) : Int :=
  (rows.getD r []).getD c 0

/-! ### Table sort

`src/` only declares `Table::sort`, `Table::sortingPhase` and
`Table::mergingPhase` (table.h); their bodies are external to the
provided sources, so the external-merge sort is modelled from the spec.
-/

/-! ### Exception behaviour of blockify

`Matrix::blockify` calls `stoi(word)` on each comma-separated cell with
no surrounding try/catch; `stoi` throws `std::invalid_argument` when the
text has no leading integer and `std::out_of_range` when the parsed
value does not fit in `int`.  The control flow of `blockify` is embedded
in `Except`, the error case modelling an exception unwinding out of the
function.
-/

/-- Value of the leading digit run of a character list. -/
def digitsVal (acc : Nat) : List Char → Nat
  | [] => acc
  | c :: cs => if c.isDigit then digitsVal (acc * 10 + (c.toNat - 48)) cs else acc

/-- `std::stoi` on one cell: an optional sign followed by at least one
digit parses to the integer value of the digit prefix; anything else
throws `std::invalid_argument`, and a parsed value outside `int`'s
range (below `-2^31` or above `2^31 - 1`) throws `std::out_of_range`. -/
def stoiModel (s : String) : Except String Int :=
  match s.data with
  | '-' :: c :: cs =>
    if c.isDigit then
      if (2147483648 : Nat) < digitsVal 0 (c :: cs) then .error "out_of_range"
      else .ok (-(digitsVal 0 (c :: cs) : Int))
    else .error "invalid_argument"
  | '+' :: c :: cs =>
    if c.isDigit then
      if (2147483647 : Nat) < digitsVal 0 (c :: cs) then .error "out_of_range"
      else .ok ((digitsVal 0 (c :: cs) : Nat) : Int)
    else .error "invalid_argument"
  | c :: cs =>
    if c.isDigit then
      if (2147483647 : Nat) < digitsVal 0 (c :: cs) then .error "out_of_range"
      else .ok ((digitsVal 0 (c :: cs) : Nat) : Int)
    else .error "invalid_argument"
  | [] => .error "invalid_argument"

/-- Whether a cell's text parses under `stoiModel`. -/
def stoiOk (s : String) : Bool :=
  match stoiModel s with
  | .ok _ => true
  | .error _ => false

/-- The inner `columnCounter` loop of `Matrix::blockify` at the
exception level: running out of tokens before `dimension` cells is the
value-returned `return false`; a non-integer token is a thrown
`std::invalid_argument`. -/
def parseCellsE (dimension : Nat) (cells : List String) : Except String Bool :=
  match dimension, cells with
  | 0, _ => .ok true
  | _ + 1, [] => .ok false
  | d + 1, w :: ws =>
    match stoiModel w with
    | .error e => .error e
    | .ok _ => parseCellsE d ws

/-- The row loop of `Matrix::blockify` at the exception level. -/
def blockifyLoopE (dimension : Nat) : List (List String) → Except String Bool
  | [] => .ok true
  | row :: rest =>
    match parseCellsE dimension row with
    | .error e => .error e
    | .ok false => .ok false
    | .ok true => blockifyLoopE dimension rest

/-- `Matrix::blockify` at the exception level: `blockDimensions` failure
and the empty file are value-returned `false`; a `stoi` failure anywhere
in the cell loop unwinds out of the function. -/
def blockifyE (T seed dimension : Nat) (rows : List (List String)) :
    Except String Bool :=
  if corrDown T (corrUp T seed) = 0 then .ok false
  else
    match blockifyLoopE dimension rows with
    | .error e => .error e
    | .ok false => .ok false
    | .ok true => if rows.length ≠ 0 then .ok true else .ok false

/-- Modelled from the spec: the row comparison of `Table::sort` (whose
body is not under `src/`): lexicographic across the key vector
`(col_indices, col_multipliers)`, multiplier `+1` meaning ascending and
`-1` descending. -/
def rowLe : List (Nat × Int) → List Int → List Int → Bool
  | [], _, _ => true
  | (c, mult) :: ks, a, b =>
    if a.getD c 0 = b.getD c 0 then rowLe ks a b
    else if mult = 1 then decide (a.getD c 0 < b.getD c 0)
    else decide (b.getD c 0 < a.getD c 0)

/-- Modelled from the spec: the sorting phase of `Table::sortingPhase`
(not under `src/`): each block's rows are sorted in place by the key
vector, producing one sorted run per block. -/
def sortingPhase (keys : List (Nat × Int)) (blocks : List (List (List Int))) :
    List (List (List Int)) :=
  blocks.map (fun b => b.mergeSort (rowLe keys))

/-- Modelled from the spec: one pass of `Table::mergingPhase` (not under
`src/`): adjacent runs are two-way merged; a trailing lone run is
carried over. -/
def mergePairs (keys : List (Nat × Int)) :
    List (List (List Int)) → List (List (List Int))
  | [] => []
  | [r] => [r]
  | a :: b :: rest => List.merge a b (rowLe keys) :: mergePairs keys rest

/-- Modelled from the spec: the `⌈log₂ block_count⌉` merge passes of
`Table::mergingPhase` (not under `src/`); the fuel argument bounds the
number of passes, `block_count` passes being always enough. -/
def mergePasses (keys : List (Nat × Int)) :
    Nat → List (List (List Int)) → List (List (List Int))
  | 0, runs => runs
  | fuel + 1, runs =>
    if runs.length ≤ 1 then runs else mergePasses keys fuel (mergePairs keys runs)

/-- Modelled from the spec: the row sequence produced by `Table::sort`
(not under `src/`): sort every block, then merge runs until a single
sorted run remains. -/
def tableSort (keys : List (Nat × Int)) (blocks : List (List (List Int))) :
    List (List Int) :=
  (mergePasses keys blocks.length (sortingPhase keys blocks)).flatten

/-- The write record expected for the full (non-final) stripe `s`, tile
column `j`: used as the loop invariant of the blockify proof. -/
def GoodWrite (name : String) (m cb N : Nat) (rows : List (List Int))
    (w : BlockWrite) (s j rc : Nat) : Prop :=
  w.owner = name ∧ w.idx = s * cb + j ∧ w.rowCount = rc
    ∧ w.colCount = colSize m cb N j
    ∧ ∀ k l, k < rc → l < colSize m cb N j →
        w.grid k l = cellAt rows (s * m + k) (j * m + l)

end RelDB

namespace RelDB

/-! ### Theorems: decimal printing

`pageFileName` embeds the page index via `to_string`; distinct indices
give distinct page names.  This needs injectivity of `Nat.repr`.
-/

theorem digitChar_inj_lt {a b : Nat} (ha : a < 10) (hb : b < 10)
    (h : Nat.digitChar a = Nat.digitChar b) : a = b := by
  interval_cases a <;> interval_cases b <;> revert h <;> decide

theorem map_digitChar_inj : ∀ {l₁ l₂ : List Nat}, (∀ d ∈ l₁, d < 10) → (∀ d ∈ l₂, d < 10) →
    l₁.map Nat.digitChar = l₂.map Nat.digitChar → l₁ = l₂
  | [], [], _, _, _ => rfl
  | [], _ :: _, _, _, h => by simp at h
  | _ :: _, [], _, _, h => by simp at h
  | a :: l₁, b :: l₂, h₁, h₂, h => by
    simp only [List.map_cons, List.cons.injEq] at h
    have hd : a = b :=
      digitChar_inj_lt (h₁ a (by simp)) (h₂ b (by simp)) h.1
    have ht : l₁ = l₂ :=
      map_digitChar_inj (fun d hd => h₁ d (by simp [hd])) (fun d hd => h₂ d (by simp [hd])) h.2
    rw [hd, ht]

theorem toDigitsCore_eq_digits :
    ∀ (fuel : Nat) (n : Nat) (ds : List Char), 0 < n → n < 10 ^ fuel →
      Nat.toDigitsCore 10 fuel n ds =
        ((Nat.digits 10 n).map Nat.digitChar).reverse ++ ds
  | 0, n, _, hn, hfu => by simp at hfu; omega
  | fuel + 1, n, ds, hn, hfu => by
    rw [Nat.toDigitsCore]
    have hdig : Nat.digits 10 n = (n % 10) :: Nat.digits 10 (n / 10) :=
      Nat.digits_def' (by norm_num) hn
    by_cases h : n / 10 = 0
    · rw [if_pos h, hdig, h]
      simp
    · rw [if_neg h]
      have h1 : 0 < n / 10 := Nat.pos_of_ne_zero h
      have h2 : n / 10 < 10 ^ fuel := by
        rw [Nat.div_lt_iff_lt_mul (by norm_num)]
        calc n < 10 ^ (fuel + 1) := hfu
        _ = 10 ^ fuel * 10 := by ring
      rw [toDigitsCore_eq_digits fuel (n / 10) _ h1 h2, hdig]
      simp

/-- Character list of `Nat.repr`. -/
def reprChars (n : Nat) : List Char :=
  if n = 0 then ['0'] else ((Nat.digits 10 n).map Nat.digitChar).reverse

theorem repr_eq_reprChars (n : Nat) : Nat.repr n = (reprChars n).asString := by
  unfold Nat.repr Nat.toDigits reprChars
  by_cases h : n = 0
  · subst h; rfl
  · rw [if_neg h]
    have hn : 0 < n := Nat.pos_of_ne_zero h
    have hlt : n < 10 ^ (n + 1) :=
      lt_of_lt_of_le (Nat.lt_pow_self (by norm_num) n)
        (Nat.pow_le_pow_right (by norm_num) (by omega))
    rw [toDigitsCore_eq_digits (n + 1) n [] hn hlt]
    simp

theorem reprChars_inj {m n : Nat} (h : reprChars m = reprChars n) : m = n := by
  unfold reprChars at h
  by_cases hm : m = 0 <;> by_cases hn : n = 0
  · omega
  · rw [if_pos hm, if_neg hn] at h
    have h' : (Nat.digits 10 n).map Nat.digitChar = ['0'] := by
      have := congrArg List.reverse h
      simpa using this.symm
    have hdig : Nat.digits 10 n = [0] := by
      have hlt : ∀ d ∈ Nat.digits 10 n, d < 10 :=
        fun d hd => Nat.digits_lt_base (by norm_num) hd
      have : Nat.digits 10 n = [0] :=
        map_digitChar_inj hlt (by simp) (by simpa using h')
      exact this
    have : n = Nat.ofDigits 10 (Nat.digits 10 n) := (Nat.ofDigits_digits 10 n).symm
    rw [hdig] at this
    simp [Nat.ofDigits] at this
    omega
  · rw [if_neg hm, if_pos hn] at h
    have h' : (Nat.digits 10 m).map Nat.digitChar = ['0'] := by
      have := congrArg List.reverse h
      simpa using this
    have hdig : Nat.digits 10 m = [0] := by
      have hlt : ∀ d ∈ Nat.digits 10 m, d < 10 :=
        fun d hd => Nat.digits_lt_base (by norm_num) hd
      exact map_digitChar_inj hlt (by simp) (by simpa using h')
    have : m = Nat.ofDigits 10 (Nat.digits 10 m) := (Nat.ofDigits_digits 10 m).symm
    rw [hdig] at this
    simp [Nat.ofDigits] at this
    omega
  · rw [if_neg hm, if_neg hn] at h
    have h' : (Nat.digits 10 m).map Nat.digitChar = (Nat.digits 10 n).map Nat.digitChar := by
      have := congrArg List.reverse h
      simpa using this
    have hdig : Nat.digits 10 m = Nat.digits 10 n :=
      map_digitChar_inj (fun d hd => Nat.digits_lt_base (by norm_num) hd)
        (fun d hd => Nat.digits_lt_base (by norm_num) hd) h'
    exact Nat.digits.injective 10 hdig

theorem string_data_inj {s t : String} (h : s.data = t.data) : s = t :=
  String.ext h

theorem nat_repr_injective {m n : Nat} (h : Nat.repr m = Nat.repr n) : m = n := by
  rw [repr_eq_reprChars, repr_eq_reprChars] at h
  exact reprChars_inj (congrArg String.data h)

theorem pageFileName_inj {t : String} {i j : Nat}
    (h : pageFileName t i = pageFileName t j) : i = j := by
  unfold pageFileName at h
  have hd := congrArg String.data h
  simp only [String.data_append] at hd
  have h1 := List.append_cancel_left hd
  have h2 : toString i = toString j := string_data_inj h1
  have h3 : Nat.repr i = Nat.repr j := h2
  exact nat_repr_injective h3

/-! ### Theorems: buffer manager -/

theorem evictFront_pages (st : BMState) : (evictFront st).pages = st.pages.tail := by
  obtain ⟨pages, br, bw, d⟩ := st
  cases pages with
  | nil => rfl
  | cons p rest => by_cases h : p.dirty <;> simp [evictFront, h]

theorem evictFront_read (st : BMState) : (evictFront st).blocksRead = st.blocksRead := by
  obtain ⟨pages, br, bw, d⟩ := st
  cases pages with
  | nil => rfl
  | cons p rest => by_cases h : p.dirty <;> simp [evictFront, h]

theorem evictFront_written (st : BMState) :
    (evictFront st).blocksWritten =
      st.blocksWritten +
        (match st.pages with | [] => 0 | p :: _ => if p.dirty then 1 else 0) := by
  obtain ⟨pages, br, bw, d⟩ := st
  cases pages with
  | nil => rfl
  | cons p rest => by_cases h : p.dirty <;> simp [evictFront, h]

theorem insertIntoPool_pages (B : Nat) (st : BMState) (t : String) (i : Nat) :
    (insertIntoPool B st t i).2.pages =
      (if B ≤ st.pages.length then st.pages.tail else st.pages) ++
        [⟨pageFileName t i, false, st.disk (pageFileName t i)⟩] := by
  unfold insertIntoPool
  by_cases h : B ≤ st.pages.length <;>
    simp [h, evictFront_pages]

theorem insertIntoPool_read (B : Nat) (st : BMState) (t : String) (i : Nat) :
    (insertIntoPool B st t i).2.blocksRead = st.blocksRead + 1 := by
  unfold insertIntoPool
  by_cases h : B ≤ st.pages.length <;> simp [h, evictFront_read]

theorem insertIntoPool_fst (B : Nat) (st : BMState) (t : String) (i : Nat) :
    (insertIntoPool B st t i).1 =
      ⟨pageFileName t i, false, st.disk (pageFileName t i)⟩ := rfl

theorem insertIntoPool_written (B : Nat) (st : BMState) (t : String) (i : Nat) :
    (insertIntoPool B st t i).2.blocksWritten =
      st.blocksWritten +
        (if B ≤ st.pages.length then
          (match st.pages with | [] => 0 | p :: _ => if p.dirty then 1 else 0)
         else 0) := by
  unfold insertIntoPool
  by_cases h : B ≤ st.pages.length <;> simp [h, evictFront_written]

theorem inPool_iff_find?_isSome (st : BMState) (n : String) :
    inPool st n = true ↔
      (st.pages.find? (fun p => p.pageName == n)).isSome := by
  rw [inPool, List.any_eq_true, List.find?_isSome]

theorem inPool_false_find?_none (st : BMState) (n : String)
    (h : inPool st n = false) :
    st.pages.find? (fun p => p.pageName == n) = none := by
  rw [List.find?_eq_none]
  intro x hx hpx
  rw [inPool, List.any_eq_false] at h
  exact h x hx hpx

/-- Claim C1 helper: a `getPage` on a page not in the pool. -/
theorem getPage_miss (B : Nat) (st : BMState) (t : String) (i : Nat)
    (h : st.pages.find? (fun p => p.pageName == pageFileName t i) = none) :
    getPage B st t i = insertIntoPool B st t i := by
  rw [getPage, h]

/-- Claim C1 helper: a `getPage` hit returns the resident page unchanged. -/
theorem getPage_hit (B : Nat) (st : BMState) (t : String) (i : Nat) (p : BMPage)
    (h : st.pages.find? (fun p => p.pageName == pageFileName t i) = some p) :
    getPage B st t i = (p, st) := by
  rw [getPage, h]

/-- Pool size is preserved below the capacity bound by every operation. -/
theorem bmStep_length_le (B : Nat) (hB : 0 < B) (st : BMState) (op : BMOp)
    (h : st.pages.length ≤ B) : (bmStep B st op).pages.length ≤ B := by
  cases op with
  | get t i =>
    show ((getPage B st t i).2.pages).length ≤ B
    cases hf : st.pages.find? (fun p => p.pageName == pageFileName t i) with
    | some p => rw [getPage_hit B st t i p hf]; exact h
    | none =>
      rw [getPage_miss B st t i hf, insertIntoPool_pages]
      by_cases hc : B ≤ st.pages.length
      · have hlen : st.pages.length = B := le_antisymm h hc
        have hne : st.pages ≠ [] := by
          intro hnil; rw [hnil] at hlen; simp at hlen; omega
        simp only [if_pos hc, List.length_append, List.length_tail]
        simp only [List.length_cons, List.length_nil]
        omega
      · simp only [if_neg hc, List.length_append]
        simp only [List.length_cons, List.length_nil]
        omega
  | write t i rows rc cc => simpa [bmStep, writePageBM] using h
  | markDirty n g => simpa [bmStep] using h
  | renameInMemory o n => simpa [bmStep, renamePagesInMemory] using h
  | deleteFile f => simpa [bmStep] using h
  | renameFile o n => simpa [bmStep] using h

theorem bmRun_length_le (B : Nat) (hB : 0 < B) :
    ∀ (ops : List BMOp) (st : BMState), st.pages.length ≤ B →
      (bmRun B st ops).pages.length ≤ B
  | [], st, h => h
  | op :: ops, st, h =>
    bmRun_length_le B hB ops (bmStep B st op) (bmStep_length_le B hB st op h)

/-- Per-operation characterisation of the `blocksWritten` counter. -/
theorem bmStep_written_char (B : Nat) (st : BMState) (op : BMOp) :
    (bmStep B st op).blocksWritten =
      st.blocksWritten + (if dirtyEviction B st op then 1 else 0)
        + (if isWritePageOp op then 1 else 0) := by
  cases op with
  | get t i =>
    show ((getPage B st t i).2).blocksWritten = _
    cases hf : st.pages.find? (fun p => p.pageName == pageFileName t i) with
    | some p =>
      rw [getPage_hit B st t i p hf]
      have hip : inPool st (pageFileName t i) = true := by
        rw [inPool_iff_find?_isSome, hf]; rfl
      simp [dirtyEviction, hip, isWritePageOp]
    | none =>
      rw [getPage_miss B st t i hf, insertIntoPool_written]
      have hip : inPool st (pageFileName t i) = false := by
        by_contra hne
        have : inPool st (pageFileName t i) = true := by
          cases hv : inPool st (pageFileName t i)
          · exact absurd hv hne
          · rfl
        rw [inPool_iff_find?_isSome, hf] at this
        exact absurd this (by simp)
      by_cases hc : B ≤ st.pages.length
      · cases hp : st.pages with
        | nil => simp [dirtyEviction, hip, hp, isWritePageOp, hc]
        | cons p rest =>
          by_cases hd : p.dirty <;>
            simp [dirtyEviction, hip, hp, isWritePageOp, hc, hd]
      · simp [dirtyEviction, hip, isWritePageOp, hc]
  | write t i rows rc cc => simp [bmStep, writePageBM, dirtyEviction, isWritePageOp]
  | markDirty n g => simp [bmStep, dirtyEviction, isWritePageOp]
  | renameInMemory o n => simp [bmStep, renamePagesInMemory, dirtyEviction, isWritePageOp]
  | deleteFile f => simp [bmStep, dirtyEviction, isWritePageOp]
  | renameFile o n => simp [bmStep, dirtyEviction, isWritePageOp]

/-- Fresh sequential `getPage` calls: FIFO keeps the last `B` inserted
pages, dropping the oldest insertions, and every call is a miss. -/
theorem bmRun_fresh_gets (B : Nat) (hB : 0 < B) (t : String) :
    ∀ (l : List Nat) (st : BMState),
      st.pages.length ≤ B →
      (∀ k ∈ l, ∀ p ∈ st.pages, p.pageName ≠ pageFileName t k) →
      (l.map (pageFileName t)).Nodup →
      (bmRun B st (l.map (BMOp.get t))).pages.map (fun p => p.pageName)
          = (st.pages.map (fun p => p.pageName) ++ l.map (pageFileName t)).drop
              (st.pages.length + l.length - B)
        ∧ (bmRun B st (l.map (BMOp.get t))).blocksRead = st.blocksRead + l.length
  | [], st, hlen, _, _ => by
    have h0 : st.pages.length - B = 0 := by omega
    simp [bmRun, h0]
  | k :: l, st, hlen, hfresh, hnodup => by
    have hf : st.pages.find? (fun p => p.pageName == pageFileName t k) = none := by
      rw [List.find?_eq_none]
      intro p hp hb
      exact hfresh k (by simp) p hp (by simpa using hb)
    have hstep : bmStep B st (BMOp.get t k) = (insertIntoPool B st t k).2 := by
      show (getPage B st t k).2 = _
      rw [getPage_miss B st t k hf]
    set newp : BMPage :=
      ⟨pageFileName t k, false, st.disk (pageFileName t k)⟩ with hnewp
    have hpages : (bmStep B st (BMOp.get t k)).pages =
        (if B ≤ st.pages.length then st.pages.tail else st.pages) ++ [newp] := by
      rw [hstep, insertIntoPool_pages]
    have hread : (bmStep B st (BMOp.get t k)).blocksRead = st.blocksRead + 1 := by
      rw [hstep, insertIntoPool_read]
    have hlen' : (bmStep B st (BMOp.get t k)).pages.length ≤ B :=
      bmStep_length_le B hB st _ hlen
    have hfresh' : ∀ k' ∈ l, ∀ p ∈ (bmStep B st (BMOp.get t k)).pages,
        p.pageName ≠ pageFileName t k' := by
      intro k' hk' p hp
      rw [hpages] at hp
      rcases List.mem_append.1 hp with hp | hp
      · have hmem : p ∈ st.pages := by
          by_cases hc : B ≤ st.pages.length

          · rw [if_pos hc] at hp; exact List.mem_of_mem_tail hp
          · rwa [if_neg hc] at hp
        exact hfresh k' (by simp [hk']) p hmem
      · have hpeq : p = newp := by simpa using hp
        rw [hpeq, hnewp]
        intro hcontra
        have hkk : pageFileName t k = pageFileName t k' := hcontra
        have hmem2 : pageFileName t k ∈ l.map (pageFileName t) := by
          rw [hkk]
          exact List.mem_map_of_mem (pageFileName t) hk'
        rw [List.map_cons] at hnodup
        exact (List.nodup_cons.1 hnodup).1 hmem2
    have hnodup' : (l.map (pageFileName t)).Nodup := by
      rw [List.map_cons] at hnodup
      exact (List.nodup_cons.1 hnodup).2
    obtain ⟨ih1, ih2⟩ :=
      bmRun_fresh_gets B hB t l (bmStep B st (BMOp.get t k)) hlen' hfresh' hnodup'
    constructor
    · have hrun : bmRun B st ((k :: l).map (BMOp.get t)) =
          bmRun B (bmStep B st (BMOp.get t k)) (l.map (BMOp.get t)) := by
        simp [bmRun]
      rw [hrun, ih1, hpages]
      by_cases hc : B ≤ st.pages.length
      · have hlenB : st.pages.length = B := le_antisymm hlen hc
        have hex : ∃ q qs, st.pages = q :: qs := by
          cases hsp : st.pages with
          | nil => exfalso; rw [hsp] at hlenB; simp at hlenB; omega
          | cons q qs => exact ⟨q, qs, rfl⟩
        obtain ⟨q, qs, hq⟩ := hex
        rw [if_pos hc, hq]
        have hqs : qs.length + 1 = B := by
          rw [hq] at hlenB; simpa using hlenB
        have hdropL : ((q :: qs).tail ++ [newp]).length + l.length - B
            = l.length := by
          simp only [List.tail_cons, List.length_append, List.length_cons,
            List.length_nil]
          omega
        have hdropR : (q :: qs).length + (k :: l).length - B = l.length + 1 := by
          simp only [List.length_cons]
          omega
        rw [hdropL, hdropR, hnewp]
        simp only [List.tail_cons, List.map_append, List.map_cons, List.map_nil,
          List.append_assoc, List.singleton_append, List.cons_append,
          List.nil_append, List.drop_succ_cons]
      · rw [if_neg hc]
        have hamt : ((st.pages ++ [newp]).length + l.length - B)
            = st.pages.length + (k :: l).length - B := by
          simp only [List.length_append, List.length_cons, List.length_nil]
          omega
        rw [hamt]
        congr 1
        rw [hnewp]
        simp
    · have hrun : bmRun B st ((k :: l).map (BMOp.get t)) =
          bmRun B (bmStep B st (BMOp.get t k)) (l.map (BMOp.get t)) := by
        simp [bmRun]
      rw [hrun, ih2, hread, List.length_cons]
      omega

/-- Claim C1: `getPage` returns a matching resident page unchanged (no
counter change); on a miss it increments `blocksRead`, reads the page
from disk, evicts the oldest-inserted page first when the pool is full
(FIFO), and appends the new page; opening `BLOCK_COUNT + 2` distinct
pages sequentially from an empty pool evicts exactly the first two
inserted pages. -/
theorem getPage_fifo_spec (B : Nat) (hB : 0 < B) :
    (∀ (st : BMState) (t : String) (i : Nat) (p : BMPage),
        st.pages.find? (fun q => q.pageName == pageFileName t i) = some p →
        getPage B st t i = (p, st))
    ∧ (∀ (st : BMState) (t : String) (i : Nat),
        st.pages.find? (fun q => q.pageName == pageFileName t i) = none →
        (getPage B st t i).2.blocksRead = st.blocksRead + 1
          ∧ (getPage B st t i).1 =
              ⟨pageFileName t i, false, st.disk (pageFileName t i)⟩
          ∧ (getPage B st t i).2.pages =
              (if B ≤ st.pages.length then st.pages.tail else st.pages)
                ++ [⟨pageFileName t i, false, st.disk (pageFileName t i)⟩])
    ∧ (∀ (d : String → List (List Int)) (t : String),
        (bmRun B (initState d) ((List.range (B + 2)).map (BMOp.get t))).pages.map
            (fun p => p.pageName)
          = ((List.range (B + 2)).map (pageFileName t)).drop 2
        ∧ (bmRun B (initState d)
              ((List.range (B + 2)).map (BMOp.get t))).blocksRead = B + 2) := by
  refine ⟨getPage_hit B, ?_, ?_⟩
  · intro st t i h
    rw [getPage_miss B st t i h]
    exact ⟨insertIntoPool_read B st t i, insertIntoPool_fst B st t i,
      insertIntoPool_pages B st t i⟩
  · intro d t
    have hinj : Function.Injective (pageFileName t) := fun a b h => pageFileName_inj h
    have hnodup : ((List.range (B + 2)).map (pageFileName t)).Nodup :=
      (List.nodup_range (B + 2)).map hinj
    obtain ⟨h1, h2⟩ := bmRun_fresh_gets B hB t (List.range (B + 2)) (initState d)
      (by simp [initState]) (by simp [initState]) hnodup
    refine ⟨?_, ?_⟩
    · rw [h1]
      simp [initState]
    · rw [h2]
      simp [initState]

/-- Claim C1 witness at `BLOCK_COUNT = 2`. -/
theorem getPage_fifo_spec_witness :
    0 < 2
    ∧ ((bmRun 2 (initState (fun _ => ([] : List (List Int))))
          ((List.range 4).map (BMOp.get "T"))).pages.map (fun p => p.pageName)
        = ((List.range 4).map (pageFileName "T")).drop 2) :=
  ⟨by decide, ((getPage_fifo_spec 2 (by decide)).2.2 (fun _ => []) "T").1⟩

/-- Claim C2: starting from the empty pool, the resident count never
exceeds `BLOCK_COUNT`; `blocksWritten` is incremented exactly on the
eviction of a dirty page and on `writePage` (which writes its transient
page immediately and does not enter the pool); a cache hit changes
nothing. -/
theorem bufferPool_invariants (B : Nat) (hB : 0 < B) :
    (∀ (d : String → List (List Int)) (ops : List BMOp),
        (bmRun B (initState d) ops).pages.length ≤ B)
    ∧ (∀ (st : BMState) (op : BMOp),
        (bmStep B st op).blocksWritten =
          st.blocksWritten + (if dirtyEviction B st op then 1 else 0)
            + (if isWritePageOp op then 1 else 0))
    ∧ (∀ (st : BMState) (t : String) (i : Nat) (rows : List (List Int)) (rc cc : Nat),
        (writePageBM st t i rows rc cc).pages = st.pages
          ∧ (writePageBM st t i rows rc cc).disk (pageFileName t i)
              = (rows.take rc).map (fun r => r.take cc))
    ∧ (∀ (st : BMState) (t : String) (i : Nat),
        inPool st (pageFileName t i) = true →
          bmStep B st (.get t i) = st) := by
  refine ⟨?_, bmStep_written_char B, ?_, ?_⟩
  · intro d ops
    exact bmRun_length_le B hB ops (initState d) (by simp [initState])
  · intro st t i rows rc cc
    exact ⟨rfl, by simp [writePageBM]⟩
  · intro st t i hip
    rw [inPool_iff_find?_isSome] at hip
    cases hf : st.pages.find? (fun p => p.pageName == pageFileName t i) with
    | none => rw [hf] at hip; simp at hip
    | some p =>
      show (getPage B st t i).2 = st
      rw [getPage_hit B st t i p hf]

/-- Claim C2 witness at `BLOCK_COUNT = 2`. -/
theorem bufferPool_invariants_witness :
    0 < 2
    ∧ (bmRun 2 (initState (fun _ => ([] : List (List Int))))
          [BMOp.get "T" 0, BMOp.get "T" 1, BMOp.get "T" 2]).pages.length ≤ 2 :=
  ⟨by decide,
    (bufferPool_invariants 2 (by decide)).1 (fun _ => [])
      [BMOp.get "T" 0, BMOp.get "T" 1, BMOp.get "T" 2]⟩

/-- Claim C8: `renamePagesInMemory` compares the full stored page name
(path plus `_PageN` suffix) against the bare object name it is called
with (`Matrix::rename` passes `matrixName`), so it never matches a page
inserted by `getPage`: after a rename the resident page keeps its old
name, the renamed object misses in the pool, and re-reading it costs a
second disk read. -/
theorem renamePagesInMemory_bug :
    ((bmRun 4 (initState (fun _ => [[1]])) [BMOp.get "old" 0]).pages.map
        (fun p => p.pageName) = [pageFileName "old" 0])
    ∧ ((renamePagesInMemory
          (bmRun 4 (initState (fun _ => [[1]])) [BMOp.get "old" 0]) "old" "new").pages
        = (bmRun 4 (initState (fun _ => [[1]])) [BMOp.get "old" 0]).pages)
    ∧ (inPool (renamePagesInMemory
          (bmRun 4 (initState (fun _ => [[1]])) [BMOp.get "old" 0]) "old" "new")
        (pageFileName "new" 0) = false)
    ∧ ((bmRun 4 (initState (fun _ => [[1]]))
          [BMOp.get "old" 0, BMOp.renameInMemory "old" "new",
           BMOp.get "new" 0]).blocksRead = 2) := by
  refine ⟨?_, ?_, ?_, ?_⟩ <;> decide

/-! ### Theorems: matrix transpose, symmetry, compute -/

theorem linIdx_inj {cb a b c d : Nat} (hb : b < cb) (hd : d < cb)
    (h : a * cb + b = c * cb + d) : a = c ∧ b = d := by
  have h0 : 0 < cb := Nat.lt_of_le_of_lt (Nat.zero_le b) hb
  have h1 : (a * cb + b) / cb = a := by
    rw [Nat.mul_comm a cb, Nat.mul_add_div h0, Nat.div_eq_of_lt hb]
    omega
  have h2 : (c * cb + d) / cb = c := by
    rw [Nat.mul_comm c cb, Nat.mul_add_div h0, Nat.div_eq_of_lt hd]
    omega
  have hac : a = c := by rw [← h1, ← h2, h]
  subst hac
  exact ⟨rfl, by omega⟩

theorem transposeIters_canon {cb : Nat} :
    ∀ p ∈ transposeIters cb, p.1 ≤ p.2 ∧ p.2 < cb := by
  intro p hp
  rw [transposeIters, List.mem_flatMap] at hp
  obtain ⟨i, hi, hp⟩ := hp
  rw [List.mem_range] at hi
  rcases List.mem_cons.1 hp with rfl | hp
  · exact ⟨le_refl i, hi⟩
  · obtain ⟨j, hj, rfl⟩ := List.mem_map.1 hp
    rw [List.mem_range'_1] at hj
    exact ⟨by omega, by omega⟩

theorem transposeIters_nodup (cb : Nat) : (transposeIters cb).Nodup := by
  rw [transposeIters, List.nodup_flatMap]
  constructor
  · intro i _
    rw [List.nodup_cons]
    constructor
    · intro hmem
      obtain ⟨j, hj, hji⟩ := List.mem_map.1 hmem
      rw [List.mem_range'_1] at hj
      have hj2 : j = i := congrArg Prod.snd hji
      omega
    · exact List.Nodup.map (fun a b hab => by simpa using hab)
        (List.nodup_range' _ _)
  · refine (List.pairwise_lt_range cb).imp ?_
    intro i j hij
    intro p hpi hpj
    have h1 : p.1 = i := by
      rcases List.mem_cons.1 hpi with rfl | hpi
      · rfl
      · obtain ⟨k, _, rfl⟩ := List.mem_map.1 hpi
        rfl
    have h2 : p.1 = j := by
      rcases List.mem_cons.1 hpj with rfl | hpj
      · rfl
      · obtain ⟨k, _, rfl⟩ := List.mem_map.1 hpj
        rfl
    omega

theorem transposeIters_mem {cb x y : Nat} (hx : x < cb) (hy : y < cb) :
    (min x y, max x y) ∈ transposeIters cb := by
  rw [transposeIters, List.mem_flatMap]
  refine ⟨min x y, List.mem_range.2 (by omega), ?_⟩
  by_cases hxy : min x y = max x y
  · rw [hxy]
    have : max x y = min x y := hxy.symm
    rw [this]
    exact List.mem_cons_self _ _
  · refine List.mem_cons_of_mem _ (List.mem_map.2 ⟨max x y, ?_, rfl⟩)
    rw [List.mem_range'_1]
    omega

theorem transposeFold_char (cb : Nat) :
    ∀ (L : List (Nat × Nat)) (bl : Nat → Grid),
      (∀ p ∈ L, p.1 ≤ p.2 ∧ p.2 < cb) → L.Nodup →
      ∀ x y, x < cb → y < cb →
        (L.foldl (transposePairStep cb) bl) (x * cb + y) =
          if (min x y, max x y) ∈ L then transposeGrid (bl (y * cb + x))
          else bl (x * cb + y)
  | [], bl, _, _, x, y, _, _ => by simp
  | (i, j) :: L, bl, hcanon, hnodup, x, y, hx, hy => by
    have hij : i ≤ j ∧ j < cb := hcanon (i, j) (by simp)
    have hi : i < cb := lt_of_le_of_lt hij.1 hij.2
    have ih := transposeFold_char cb L (transposePairStep cb bl (i, j))
      (fun p hp => hcanon p (by simp [hp])) (List.nodup_cons.1 hnodup).2 x y hx hy
    rw [List.foldl_cons, ih]
    by_cases hmem : (min x y, max x y) ∈ L
    · rw [if_pos hmem, if_pos (by simp [hmem])]
      have hne : (min x y, max x y) ≠ (i, j) := by
        intro he
        exact (List.nodup_cons.1 hnodup).1 (he ▸ hmem)
      have hstep : transposePairStep cb bl (i, j) (y * cb + x) = bl (y * cb + x) := by
        rw [transposePairStep]
        rw [if_neg, if_neg]
        · intro he
          obtain ⟨h1, h2⟩ := linIdx_inj hx hi he
          exact hne (by simp only [Prod.mk.injEq]; omega)
        · intro he
          obtain ⟨h1, h2⟩ := linIdx_inj hx hij.2 he
          exact hne (by simp only [Prod.mk.injEq]; omega)
      rw [hstep]
    · rw [if_neg hmem]
      by_cases hpair : (min x y, max x y) = (i, j)
      · rw [if_pos (by simp [hpair])]
        have hmin : min x y = i := congrArg Prod.fst hpair
        have hmax : max x y = j := congrArg Prod.snd hpair
        rw [transposePairStep]
        by_cases hxy : x ≤ y
        · have hxi : x = i := by omega
          have hyj : y = j := by omega
          rw [if_pos (by rw [hxi, hyj])]
          rw [hxi, hyj]
        · have hxj : x = j := by omega
          have hyi : y = i := by omega
          have hne1 : x * cb + y ≠ i * cb + j := by
            intro he
            obtain ⟨h1, h2⟩ := linIdx_inj hy hij.2 he
            omega
          rw [if_neg hne1, if_pos (by rw [hxj, hyi])]
          rw [hxj, hyi]
      · rw [if_neg (by simp [hmem, hpair])]
        rw [transposePairStep]
        have hne1 : x * cb + y ≠ i * cb + j := by
          intro he
          obtain ⟨h1, h2⟩ := linIdx_inj hy hij.2 he
          exact hpair (by simp only [Prod.mk.injEq]; omega)
        have hne2 : x * cb + y ≠ j * cb + i := by
          intro he
          obtain ⟨h1, h2⟩ := linIdx_inj hy hi he
          exact hpair (by simp only [Prod.mk.injEq]; omega)
        rw [if_neg hne1, if_neg hne2]

theorem transposeMatrix_symmetric (M : MatrixBlocks) :
    (transposeMatrix M).symmetric = M.symmetric := by
  rw [transposeMatrix]
  split <;> rfl

theorem transposeMatrix_dims (M : MatrixBlocks) :
    (transposeMatrix M).dimension = M.dimension
      ∧ (transposeMatrix M).m = M.m
      ∧ (transposeMatrix M).concurrentBlocks = M.concurrentBlocks := by
  rw [transposeMatrix]
  split <;> exact ⟨rfl, rfl, rfl⟩

theorem transposeMatrix_blocks (M : MatrixBlocks) (hsym : M.symmetric ≠ 1)
    {x y : Nat} (hx : x < M.concurrentBlocks) (hy : y < M.concurrentBlocks) :
    (transposeMatrix M).blocks (x * M.concurrentBlocks + y)
      = transposeGrid (M.blocks (y * M.concurrentBlocks + x)) := by
  rw [transposeMatrix, if_neg hsym]
  have h := transposeFold_char M.concurrentBlocks (transposeIters M.concurrentBlocks)
    M.blocks transposeIters_canon (transposeIters_nodup _) x y hx hy
  show (transposeIters M.concurrentBlocks).foldl
      (transposePairStep M.concurrentBlocks) M.blocks (x * M.concurrentBlocks + y) = _
  rw [h, if_pos (transposeIters_mem hx hy)]

/-- Claim C5: two consecutive `TRANSPOSE` leave every block of the matrix
equal to its original contents; a single `TRANSPOSE` (when not short-cut
by a cached `symmetric == true`) transposes each diagonal tile in place
and swap-and-transposes each off-diagonal pair, so its effect on the
whole matrix is exactly one global transpose. -/
theorem transpose_involution (M : MatrixBlocks) (hm : 0 < M.m)
    (hNm : M.dimension ≤ M.concurrentBlocks * M.m) :
    (∀ x y, x < M.concurrentBlocks → y < M.concurrentBlocks →
        (transposeMatrix (transposeMatrix M)).blocks (x * M.concurrentBlocks + y)
          = M.blocks (x * M.concurrentBlocks + y))
    ∧ (M.symmetric ≠ 1 →
        ∀ x y, x < M.concurrentBlocks → y < M.concurrentBlocks →
          (transposeMatrix M).blocks (x * M.concurrentBlocks + y)
            = transposeGrid (M.blocks (y * M.concurrentBlocks + x)))
    ∧ (M.symmetric ≠ 1 →
        ∀ r c, r < M.dimension → c < M.dimension →
          cellOf (transposeMatrix M) r c = cellOf M c r) := by
  obtain ⟨hd, hmm, hcb⟩ := transposeMatrix_dims M
  refine ⟨?_, fun hsym x y hx hy => transposeMatrix_blocks M hsym hx hy, ?_⟩
  · intro x y hx hy
    by_cases hsym : M.symmetric = 1
    · have hM : transposeMatrix M = M := by rw [transposeMatrix, if_pos hsym]
      rw [hM, hM]
    · have hsym' : (transposeMatrix M).symmetric ≠ 1 := by
        rw [transposeMatrix_symmetric]; exact hsym
      have h2 := transposeMatrix_blocks (transposeMatrix M) hsym'
        (x := x) (y := y) (by rw [hcb]; exact hx) (by rw [hcb]; exact hy)
      rw [hcb] at h2
      rw [h2, transposeMatrix_blocks M hsym hy hx]
      rfl
  · intro hsym r c hr hc
    have hrm : r / M.m < M.concurrentBlocks := by
      rw [Nat.div_lt_iff_lt_mul hm]
      calc r < M.dimension := hr
      _ ≤ M.concurrentBlocks * M.m := hNm
      _ = M.concurrentBlocks * M.m := rfl
    have hcm : c / M.m < M.concurrentBlocks := by
      rw [Nat.div_lt_iff_lt_mul hm]
      exact lt_of_lt_of_le hc hNm
    show (transposeMatrix M).blocks
        ((r / (transposeMatrix M).m) * (transposeMatrix M).concurrentBlocks
          + (c / (transposeMatrix M).m)) (r % (transposeMatrix M).m)
        (c % (transposeMatrix M).m) = _
    rw [hmm, hcb]
    rw [transposeMatrix_blocks M hsym hrm hcm]
    rfl

/-- Claim C5 witness: a concrete 2 × 2-tile matrix. -/
theorem transpose_involution_witness :
    0 < c5M.m ∧ c5M.dimension ≤ c5M.concurrentBlocks * c5M.m
      ∧ (transposeMatrix (transposeMatrix c5M)).blocks (0 * c5M.concurrentBlocks + 1)
          = c5M.blocks (0 * c5M.concurrentBlocks + 1) :=
  ⟨by decide, by decide,
    (transpose_involution c5M (by decide) (by decide)).1 0 1 (by decide) (by decide)⟩

/-- Claim C4: `Matrix::symmetry` reports `true` (and caches `1`) on a
16 × 16 matrix, tiled with the nominal `m = 15`, whose cell `(0, 15)` is
`1` while cell `(15, 0)` is `2` — an asymmetric matrix.  The off-diagonal
loop starts its inner index at `l = k + 1` and the block pair `(j, i)` is
never visited on its own, so every off-diagonal pair `(r, c)` whose local
coordinates satisfy `c % m ≤ r % m` — here all pairs spanning the border
tiles — is skipped. -/
theorem symmetry_misses_asymmetric_pair :
    (symmetry c4M).1 = true
    ∧ (symmetry c4M).2.symmetric = 1
    ∧ cellOf c4M 0 15 = 1 ∧ cellOf c4M 15 0 = 2 := by
  refine ⟨?_, ?_, ?_, ?_⟩ <;> decide

/-- Claim C6: every page written by `Matrix::compute` is written under
the new matrix's name (so the source matrix's blocks are untouched), and
the grid written for the block containing cell `(r, c)` holds
`old[r][c] − old[c][r]` at that cell's local coordinates. -/
theorem compute_writes_spec (M : MatrixBlocks) (newName oldName : String)
    (hname : newName ≠ oldName) (hm : 0 < M.m)
    (hNm : M.dimension ≤ M.concurrentBlocks * M.m) :
    (∀ w ∈ computeWrites M newName, w.owner = newName ∧ w.owner ≠ oldName)
    ∧ (∀ r c, r < M.dimension → c < M.dimension →
        ∃ w ∈ computeWrites M newName,
          w.idx = (r / M.m) * M.concurrentBlocks + (c / M.m)
            ∧ w.grid (r % M.m) (c % M.m) = cellOf M r c - cellOf M c r) := by
  constructor
  · intro w hw
    rw [computeWrites, List.mem_flatMap] at hw
    obtain ⟨i, _, hw⟩ := hw
    rcases List.mem_cons.1 hw with rfl | hw
    · exact ⟨rfl, hname⟩
    · rw [List.mem_flatMap] at hw
      obtain ⟨j, _, hw⟩ := hw
      rcases List.mem_cons.1 hw with rfl | hw
      · exact ⟨rfl, hname⟩
      · rcases List.mem_cons.1 hw with rfl | hw
        · exact ⟨rfl, hname⟩
        · simp at hw
  · intro r c hr hc
    have hrm : r / M.m < M.concurrentBlocks := by
      rw [Nat.div_lt_iff_lt_mul hm]
      exact lt_of_lt_of_le hr hNm
    have hcm : c / M.m < M.concurrentBlocks := by
      rw [Nat.div_lt_iff_lt_mul hm]
      exact lt_of_lt_of_le hc hNm
    rcases Nat.lt_trichotomy (r / M.m) (c / M.m) with hlt | heq | hgt
    · refine ⟨⟨newName, (r / M.m) * M.concurrentBlocks + (c / M.m),
          (subtractTransposePair
            (M.blocks ((r / M.m) * M.concurrentBlocks + (c / M.m)))
            (M.blocks ((c / M.m) * M.concurrentBlocks + (r / M.m)))).1⟩, ?_, rfl, rfl⟩
      rw [computeWrites, List.mem_flatMap]
      refine ⟨r / M.m, List.mem_range.2 hrm, List.mem_cons_of_mem _ ?_⟩
      rw [List.mem_flatMap]
      refine ⟨c / M.m, ?_, by simp⟩
      rw [List.mem_range'_1]
      omega
    · refine ⟨⟨newName, (r / M.m) * M.concurrentBlocks + (r / M.m),
          subtractTransposeGrid
            (M.blocks ((r / M.m) * M.concurrentBlocks + (r / M.m)))⟩, ?_, ?_, ?_⟩
      · rw [computeWrites, List.mem_flatMap]
        exact ⟨r / M.m, List.mem_range.2 hrm, List.mem_cons_self _ _⟩
      · show (r / M.m) * M.concurrentBlocks + (r / M.m)
            = (r / M.m) * M.concurrentBlocks + (c / M.m)
        rw [heq]
      · show M.blocks ((r / M.m) * M.concurrentBlocks + r / M.m) (r % M.m) (c % M.m)
            - M.blocks ((r / M.m) * M.concurrentBlocks + r / M.m) (c % M.m) (r % M.m)
          = cellOf M r c - cellOf M c r
        simp only [cellOf]
        rw [heq]
    · refine ⟨⟨newName, (r / M.m) * M.concurrentBlocks + (c / M.m),
          (subtractTransposePair
            (M.blocks ((c / M.m) * M.concurrentBlocks + (r / M.m)))
            (M.blocks ((r / M.m) * M.concurrentBlocks + (c / M.m)))).2⟩, ?_, rfl, rfl⟩
      rw [computeWrites, List.mem_flatMap]
      refine ⟨c / M.m, List.mem_range.2 hcm, List.mem_cons_of_mem _ ?_⟩
      rw [List.mem_flatMap]
      refine ⟨r / M.m, ?_, by simp⟩
      rw [List.mem_range'_1]
      omega

/-- Claim C6 witness. -/
theorem compute_writes_spec_witness :
    ("N" : String) ≠ "M"
      ∧ ∃ w ∈ computeWrites c5M "N",
          w.idx = (0 / c5M.m) * c5M.concurrentBlocks + (1 / c5M.m)
            ∧ w.grid (0 % c5M.m) (1 % c5M.m) = cellOf c5M 0 1 - cellOf c5M 1 0 :=
  ⟨by decide,
    (compute_writes_spec c5M "N" "M" (by decide) (by decide) (by decide)).2
      0 1 (by decide) (by decide)⟩

/-! ### Theorems: blockify -/

theorem corrUp_stop (T : Nat) :
    ∀ d c, T + 1 - c ≤ d → T < (corrUp T c + 1) * (corrUp T c + 1)
  | 0, c, hd => by
    rw [corrUp]
    have hle : c + 1 ≤ (c + 1) * (c + 1) := Nat.le_mul_of_pos_left _ (by omega)
    have hfalse : ¬ ((c + 1) * (c + 1) ≤ T) := by omega
    rw [dif_neg hfalse]
    omega
  | d + 1, c, hd => by
    rw [corrUp]
    by_cases h : (c + 1) * (c + 1) ≤ T
    · rw [dif_pos h]
      have hle : c + 1 ≤ (c + 1) * (c + 1) := Nat.le_mul_of_pos_left _ (by omega)
      exact corrUp_stop T d (c + 1) (by omega)
    · rw [dif_neg h]
      omega

theorem corrUp_sq (T : Nat) :
    ∀ d c, T + 1 - c ≤ d → c * c ≤ T → (corrUp T c) * (corrUp T c) ≤ T
  | 0, c, hd, hc => by
    exfalso
    have h1 : c ≤ c * c := Nat.le_mul_of_pos_left _ (by omega)
    omega
  | d + 1, c, hd, hc => by
    rw [corrUp]
    by_cases h : (c + 1) * (c + 1) ≤ T
    · rw [dif_pos h]
      have hle : c + 1 ≤ (c + 1) * (c + 1) := Nat.le_mul_of_pos_left _ (by omega)
      exact corrUp_sq T d (c + 1) (by omega) h
    · rw [dif_neg h]
      exact hc

theorem corrDown_sq (T : Nat) : ∀ c, (corrDown T c) * (corrDown T c) ≤ T
  | 0 => by
    rw [corrDown]
    rw [dif_neg (by omega : ¬ T < 0 * 0)]
    omega
  | c + 1 => by
    rw [corrDown]
    by_cases h : T < (c + 1) * (c + 1)
    · rw [dif_pos h]
      simpa using corrDown_sq T c
    · rw [dif_neg h]
      omega

theorem corrDown_ge (T : Nat) : ∀ c k, k ≤ c → k * k ≤ T → k ≤ corrDown T c
  | 0, k, hk, hkT => by
    rw [corrDown]
    rw [dif_neg (by omega : ¬ T < 0 * 0)]
    omega
  | c + 1, k, hk, hkT => by
    rw [corrDown]
    by_cases h : T < (c + 1) * (c + 1)
    · rw [dif_pos h]
      have hkc : k ≠ c + 1 := by rintro rfl; omega
      have hrec := corrDown_ge T c k (by omega) hkT
      simpa using hrec
    · rw [dif_neg h]
      exact hk

/-- The corrected square root is the largest `c` with `c * c ≤ T`, from
any seed. -/
theorem isqrt_correct (T seed : Nat) :
    (corrDown T (corrUp T seed)) * (corrDown T (corrUp T seed)) ≤ T
    ∧ ∀ k, k * k ≤ T → k ≤ corrDown T (corrUp T seed) := by
  refine ⟨corrDown_sq T _, fun k hk => ?_⟩
  have hstop := corrUp_stop T (T + 1 - seed) seed le_rfl
  have hk_le : k ≤ corrUp T seed := by
    by_contra hlt
    push_neg at hlt
    have hmul : (corrUp T seed + 1) * (corrUp T seed + 1) ≤ k * k :=
      Nat.mul_le_mul (by omega) (by omega)
    omega
  exact corrDown_ge T _ k hk_le hk

theorem ceilDiv_eq {m N : Nat} (hm : 0 < m) :
    (N + m - 1) / m = if N % m = 0 then N / m else N / m + 1 := by
  have hdm := Nat.div_add_mod N m
  have hmod : N % m < m := Nat.mod_lt _ hm
  by_cases hr : N % m = 0
  · rw [if_pos hr]
    by_cases hN0 : N = 0
    · subst hN0
      simp [Nat.div_eq_of_lt (by omega : m - 1 < m)]
    · have hNe : N + m - 1 = m * (N / m) + (m - 1) := by omega
      have hz : (m - 1) / m = 0 := Nat.div_eq_of_lt (by omega)
      rw [hNe, Nat.mul_add_div hm, hz]
      simp
  · rw [if_neg hr]
    have hexp : m * (N / m + 1) = m * (N / m) + m := by ring
    have hNe : N + m - 1 = m * (N / m + 1) + (N % m - 1) := by omega
    have hz : (N % m - 1) / m = 0 := Nat.div_eq_of_lt (by omega)
    rw [hNe, Nat.mul_add_div hm, hz]

theorem cb_facts {m N cb : Nat} (hm : 0 < m) (hN : 0 < N)
    (hcb : cb = (N + m - 1) / m) :
    N ≤ cb * m ∧ (cb - 1) * m < N ∧ 1 ≤ cb
    ∧ (N % m = 0 → cb = N / m) ∧ (N % m ≠ 0 → cb = N / m + 1) := by
  have hdm := Nat.div_add_mod N m
  have hmod : N % m < m := Nat.mod_lt _ hm
  rw [ceilDiv_eq hm] at hcb
  by_cases hr : N % m = 0
  · rw [if_pos hr] at hcb
    have hq : 1 ≤ N / m := by
      rcases Nat.eq_zero_or_pos (N / m) with h0 | h1
      · exfalso; rw [h0] at hdm; omega
      · exact h1
    have he1 : cb * m = m * (N / m) := by rw [hcb]; ring
    have he2 : (cb - 1) * m = m * (N / m) - m := by
      rw [hcb]
      have hsub : (N / m - 1) * m = m * (N / m) - m * 1 := by
        rw [Nat.sub_mul]; ring_nf
      omega
    refine ⟨by omega, by omega, ?_, fun _ => hcb, fun hc => absurd hr hc⟩
    rw [hcb]
    exact hq
  · rw [if_neg hr] at hcb
    have he1 : cb * m = m * (N / m) + m := by
      rw [hcb]; ring
    have he2 : (cb - 1) * m = m * (N / m) := by
      rw [hcb]
      simp [Nat.mul_comm]
    refine ⟨by omega, by omega, ?_, fun hc => absurd hc hr, fun _ => hcb⟩
    rw [hcb]
    exact Nat.le_add_left 1 (N / m)

theorem colSize_le {m cb N i : Nat} (hm : 0 < m) : colSize m cb N i ≤ m := by
  rw [colSize]
  split
  · exact le_of_lt (Nat.mod_lt _ hm)
  · exact le_refl m

theorem colSize_bound {m cb N i l : Nat} (hm : 0 < m) (hN : 0 < N)
    (hcb : cb = (N + m - 1) / m) (hi : i < cb) (hl : l < colSize m cb N i) :
    i * m + l < N := by
  obtain ⟨h1, h2, h3, h4, h5⟩ := cb_facts hm hN hcb
  have hdm := Nat.div_add_mod N m
  have hmod : N % m < m := Nat.mod_lt _ hm
  rw [colSize] at hl
  by_cases hc : i = cb - 1 ∧ N % m ≠ 0
  · rw [if_pos hc] at hl
    obtain ⟨rfl, hr⟩ := hc
    have hcb' := h5 hr
    have : (cb - 1) * m = m * (N / m) := by
      rw [hcb']
      simp [Nat.mul_comm]
    omega
  · rw [if_neg hc] at hl
    by_cases hi' : i + 1 ≤ cb - 1
    · have : (i + 1) * m ≤ (cb - 1) * m := Nat.mul_le_mul_right m hi'
      have hexp : (i + 1) * m = i * m + m := by ring
      omega
    · have hieq : i = cb - 1 := by omega
      have hr : N % m = 0 := by
        by_contra hr
        exact hc ⟨hieq, hr⟩
      have hcb' := h4 hr
      have heq : (cb - 1) * m = m * (N / m) - m := by
        rw [hcb']
        have : (N / m - 1) * m = m * (N / m) - m * 1 := by
          rw [Nat.sub_mul]; ring_nf
        omega
      have hq : 1 ≤ N / m := by
        rcases Nat.eq_zero_or_pos (N / m) with h0 | h1
        · exfalso; rw [h0] at hdm; omega
        · exact h1
      have h7 : m ≤ m * (N / m) := by
        calc m = m * 1 := by ring
        _ ≤ m * (N / m) := Nat.mul_le_mul_left m hq
      subst hieq
      omega

theorem colSize_eq_min {m cb N i : Nat} (hm : 0 < m) (hN : 0 < N)
    (hcb : cb = (N + m - 1) / m) (hi : i < cb) :
    colSize m cb N i = min m (N - i * m) := by
  obtain ⟨h1, h2, h3, h4, h5⟩ := cb_facts hm hN hcb
  have hdm := Nat.div_add_mod N m
  have hmod : N % m < m := Nat.mod_lt _ hm
  rw [colSize]
  by_cases hc : i = cb - 1 ∧ N % m ≠ 0
  · rw [if_pos hc]
    obtain ⟨rfl, hr⟩ := hc
    have hcb' := h5 hr
    have heq : (cb - 1) * m = m * (N / m) := by
      rw [hcb']
      simp [Nat.mul_comm]
    omega
  · rw [if_neg hc]
    by_cases hi' : i + 1 ≤ cb - 1
    · have hle : (i + 1) * m ≤ (cb - 1) * m := Nat.mul_le_mul_right m hi'
      have hexp : (i + 1) * m = i * m + m := by ring
      omega
    · have hieq : i = cb - 1 := by omega
      have hr : N % m = 0 := by
        by_contra hr
        exact hc ⟨hieq, hr⟩
      have hcb' := h4 hr
      have heq : (cb - 1) * m = m * (N / m) - m := by
        rw [hcb']
        have : (N / m - 1) * m = m * (N / m) - m * 1 := by
          rw [Nat.sub_mul]; ring_nf
        omega
      have hq : 1 ≤ N / m := by
        rcases Nat.eq_zero_or_pos (N / m) with h0 | h1
        · exfalso; rw [h0] at hdm; omega
        · exact h1
      have h7 : m ≤ m * (N / m) := by
        calc m = m * 1 := by ring
        _ ≤ m * (N / m) := Nat.mul_le_mul_left m hq
      subst hieq
      omega

theorem distributeFold_get (m : Nat) (hm : 0 < m) (row : List Int) (ri : Nat)
    (g : Nat → Nat → Nat → Int) (t k l : Nat) :
    ∀ n, ((List.range n).foldl
        (fun acc c => gridCellUpdate acc (c / m) ri (c % m) (row.getD c 0)) g) t k l
      = if k = ri ∧ l < m ∧ t * m + l < n then row.getD (t * m + l) 0 else g t k l
  | 0 => by simp
  | n + 1 => by
    rw [List.range_succ, List.foldl_append]
    simp only [List.foldl_cons, List.foldl_nil, gridCellUpdate]
    by_cases hmatch : t = n / m ∧ k = ri ∧ l = n % m
    · rw [if_pos hmatch]
      obtain ⟨ht, hk, hl⟩ := hmatch
      have hdm := Nat.div_add_mod n m
      have hn : t * m + l = n := by
        rw [ht, hl, Nat.mul_comm]
        exact hdm
      have hcond : k = ri ∧ l < m ∧ t * m + l < n + 1 := by
        refine ⟨hk, ?_, by omega⟩
        rw [hl]
        exact Nat.mod_lt _ hm
      rw [if_pos hcond, hn]
    · rw [if_neg hmatch]
      rw [distributeFold_get m hm row ri g t k l n]
      by_cases hc : k = ri ∧ l < m ∧ t * m + l < n
      · rw [if_pos hc, if_pos ⟨hc.1, hc.2.1, by omega⟩]
      · have hc2 : ¬ (k = ri ∧ l < m ∧ t * m + l < n + 1) := by
          intro hcc
          apply hc
          refine ⟨hcc.1, hcc.2.1, ?_⟩
          rcases Nat.lt_or_ge (t * m + l) n with h | h
          · exact h
          · exfalso
            have hn : t * m + l = n := by omega
            have hdm := Nat.div_add_mod n m
            have hmod : n % m < m := Nat.mod_lt _ hm
            have heq : t * m + l = (n / m) * m + n % m := by
              rw [Nat.mul_comm (n / m) m]
              omega
            obtain ⟨h1, h2⟩ := linIdx_inj hcc.2.1 hmod heq
            exact hmatch ⟨h1, hcc.1, h2⟩
        rw [if_neg hc, if_neg hc2]

theorem distributeRow_get (m N : Nat) (hm : 0 < m) (row : List Int) (ri : Nat)
    (g : Nat → Nat → Nat → Int) (t k l : Nat) :
    distributeRow m N row ri g t k l
      = if k = ri ∧ l < m ∧ t * m + l < N then row.getD (t * m + l) 0 else g t k l :=
  distributeFold_get m hm row ri g t k l N

theorem stripeWrites_length (name : String) (m cb N : Nat)
    (g : Nat → Nat → Nat → Int) (bc ri : Nat) :
    (stripeWrites name m cb N g bc ri).length = cb := by
  rw [stripeWrites, List.length_map, List.length_range]

theorem stripeWrites_get (name : String) (m cb N : Nat)
    (g : Nat → Nat → Nat → Int) (bc ri j : Nat)
    (hj : j < (stripeWrites name m cb N g bc ri).length) :
    (stripeWrites name m cb N g bc ri).get ⟨j, hj⟩
      = { owner := name
          idx := bc + j
          grid := g j
          rowCount := ri
          colCount := colSize m cb N j } := by
  simp [stripeWrites]

/-- Loop invariant of `Matrix::blockify`: after `p` full rows the
counters hold `p % m`, `p`, `(p / m) · cb`; the flushed writes are the
`p / m` complete stripes; the stripe buffers hold the `p % m` rows of
the current stripe. -/
theorem blockifyLoop_spec (name : String) (m cb N : Nat) (hm : 0 < m) (hN : 0 < N)
    (hcb : cb = (N + m - 1) / m) (rows : List (List Int))
    (hrows : rows.length = N) (hrowlen : ∀ row ∈ rows, row.length = N) :
    ∀ (rest : List (List Int)) (p : Nat) (st : BlockifyState),
      rest = rows.drop p → p ≤ N →
      st.rowIndex = p % m → st.rowsRead = p →
      st.blockCount = (p / m) * cb →
      st.writes.length = (p / m) * cb →
      (∀ s j, s < p / m → j < cb →
        ∀ (hw : s * cb + j < st.writes.length),
          GoodWrite name m cb N rows (st.writes.get ⟨s * cb + j, hw⟩) s j m) →
      (∀ t k l, k < p % m → l < m → t * m + l < N →
        st.grids t k l = cellAt rows ((p / m) * m + k) (t * m + l)) →
      ∃ st', blockifyLoop name m cb N rest st = some st'
        ∧ st'.rowIndex = N % m ∧ st'.rowsRead = N
        ∧ st'.blockCount = (N / m) * cb
        ∧ st'.writes.length = (N / m) * cb
        ∧ (∀ s j, s < N / m → j < cb →
            ∀ (hw : s * cb + j < st'.writes.length),
              GoodWrite name m cb N rows (st'.writes.get ⟨s * cb + j, hw⟩) s j m)
        ∧ (∀ t k l, k < N % m → l < m → t * m + l < N →
            st'.grids t k l = cellAt rows ((N / m) * m + k) (t * m + l))
  | [], p, st, hdrop, hpN, hri, hrr, hbc, hwl, hgood, hgrids => by
    have hp : p = N := by
      have hle := List.drop_eq_nil_iff.1 hdrop.symm
      omega
    subst hp
    exact ⟨st, rfl, hri, hrr, hbc, hwl, hgood, hgrids⟩
  | row :: rest', p, st, hdrop, hpN, hri, hrr, hbc, hwl, hgood, hgrids => by
    have hpn : p < N := by
      by_contra hge
      have hnil : rows.drop p = [] := List.drop_eq_nil_of_le (by omega)
      rw [← hdrop] at hnil
      simp at hnil
    have hrowget : rows[p]? = some row := by
      have h1 : (rows.drop p)[0]? = rows[p + 0]? := List.getElem?_drop rows p 0
      rw [← hdrop] at h1
      simpa using h1.symm
    have hrowmem : row ∈ rows := by
      have hmem : row ∈ rows.drop p := by
        rw [← hdrop]
        exact List.mem_cons_self _ _
      exact List.mem_of_mem_drop hmem
    have hrlen : row.length = N := hrowlen row hrowmem
    have hrest' : rest' = rows.drop (p + 1) := by
      have h1 : (rows.drop p).drop 1 = rows.drop (p + 1) := List.drop_drop 1 p rows
      rw [← hdrop] at h1
      simpa using h1
    have hrowD : rows.getD p [] = row := by
      rw [List.getD_eq_getElem?_getD, hrowget]
      rfl
    have hdm := Nat.div_add_mod p m
    have hpmod : p % m < m := Nat.mod_lt _ hm
    rw [blockifyLoop]
    rw [if_neg (by omega : ¬ row.length < N)]
    have hst1ri : (blockifyRowState m N st row).rowIndex = p % m + 1 := by
      rw [blockifyRowState, hri]
    by_cases hflush : p % m + 1 = m
    · -- the stripe is complete: writeToBuffer runs
      have hexp : m * (p / m + 1) = m * (p / m) + m := by ring
      have hp1 : p + 1 = m * (p / m + 1) := by omega
      have hdiv1 : (p + 1) / m = p / m + 1 := by
        rw [hp1, Nat.mul_div_cancel_left _ hm]
      have hmod1 : (p + 1) % m = 0 := by
        rw [hp1, Nat.mul_mod_right]
      have hstep : blockifyRow name m cb N st row
          = writeToBuffer name m cb N (blockifyRowState m N st row) := by
        rw [blockifyRow, if_pos (by rw [hst1ri]; exact hflush)]
      set st1 := blockifyRowState m N st row with hst1
      set st2 := writeToBuffer name m cb N st1 with hst2
      have h2ri : st2.rowIndex = (p + 1) % m := by
        rw [hst2, writeToBuffer, hmod1]
      have h2rr : st2.rowsRead = p + 1 := by
        rw [hst2, writeToBuffer]
        show st1.rowsRead = p + 1
        rw [hst1, blockifyRowState, hrr]
      have h2bc : st2.blockCount = ((p + 1) / m) * cb := by
        rw [hst2, writeToBuffer, hdiv1]
        show st1.blockCount + cb = (p / m + 1) * cb
        rw [hst1, blockifyRowState, hbc, Nat.succ_mul]
      have h2wl : st2.writes.length = ((p + 1) / m) * cb := by
        rw [hst2, writeToBuffer, hdiv1]
        show (st1.writes ++ stripeWrites name m cb N st1.grids st1.blockCount
          st1.rowIndex).length = (p / m + 1) * cb
        rw [List.length_append, stripeWrites_length, hst1, blockifyRowState,
          Nat.succ_mul]
        show st.writes.length + cb = p / m * cb + cb
        rw [hwl]
      have h1grids : ∀ t k l, st1.grids t k l
          = distributeRow m N row (p % m) st.grids t k l := by
        intro t k l
        rw [hst1, blockifyRowState, hri]
      have h2good : ∀ s j, s < (p + 1) / m → j < cb →
          ∀ (hw : s * cb + j < st2.writes.length),
            GoodWrite name m cb N rows (st2.writes.get ⟨s * cb + j, hw⟩) s j m := by
        intro s j hs hj hw
        have hwapp : st2.writes = st.writes
            ++ stripeWrites name m cb N st1.grids st1.blockCount st1.rowIndex := by
          rw [hst2, writeToBuffer]
          show _ = st1.writes ++ _
          rw [hst1, blockifyRowState]
        rw [hdiv1] at hs
        by_cases hslt : s < p / m
        · have hidx : s * cb + j < st.writes.length := by
            rw [hwl]
            have hle : (s + 1) * cb ≤ (p / m) * cb :=
              Nat.mul_le_mul_right cb (by omega)
            have hexp2 : (s + 1) * cb = s * cb + cb := by ring
            omega
          have hgetl : st2.writes.get ⟨s * cb + j, hw⟩
              = st.writes.get ⟨s * cb + j, hidx⟩ := by
            rw [List.get_eq_getElem, List.get_eq_getElem]
            rw [List.getElem_of_eq hwapp]
            exact List.getElem_append_left hidx
          rw [hgetl]
          exact hgood s j hslt hj hidx
        · have hseq : s = p / m := by omega
          have hblen : st.writes.length = s * cb := by rw [hwl, hseq]
          have hbc1 : st1.blockCount = s * cb := by
            rw [hst1, blockifyRowState]
            rw [hbc, hseq]
          have hj2 : s * cb + j - st.writes.length
              < (stripeWrites name m cb N st1.grids st1.blockCount
                  st1.rowIndex).length := by
            rw [stripeWrites_length]
            omega
          have hgetr : st2.writes.get ⟨s * cb + j, hw⟩
              = { owner := name
                  idx := s * cb + j
                  grid := st1.grids j
                  rowCount := p % m + 1
                  colCount := colSize m cb N j } := by
            rw [List.get_eq_getElem]
            rw [List.getElem_of_eq hwapp]
            rw [List.getElem_append_right (by omega : st.writes.length ≤ s * cb + j)]
            rw [← List.get_eq_getElem _ ⟨_, hj2⟩, stripeWrites_get]
            have hsub : s * cb + j - st.writes.length = j := by omega
            rw [hsub, hbc1, hst1ri]
          rw [hgetr]
          refine ⟨rfl, rfl, hflush, rfl, ?_⟩
          intro k l hk hl
          show st1.grids j k l = _
          rw [h1grids]
          have hlm : l < m := lt_of_lt_of_le hl (colSize_le hm)
          have hjl : j * m + l < N := colSize_bound hm hN hcb hj hl
          rw [distributeRow_get m N hm row (p % m) st.grids j k l]
          by_cases hkm : k = p % m
          · rw [if_pos ⟨hkm, hlm, hjl⟩]
            have hpk : s * m + k = p := by
              have h9 : s * m = m * (p / m) := by
                rw [hseq, Nat.mul_comm]
              omega
            rw [hpk]
            show row.getD (j * m + l) 0 = cellAt rows p (j * m + l)
            rw [cellAt, hrowD]
          · rw [if_neg (by tauto)]
            have hk2 : k < p % m := by omega
            rw [hseq]
            exact hgrids j k l hk2 hlm hjl
      have h2grids : ∀ t k l, k < (p + 1) % m → l < m → t * m + l < N →
          st2.grids t k l = cellAt rows (((p + 1) / m) * m + k) (t * m + l) := by
        intro t k l hk
        rw [hmod1] at hk
        omega
      rw [hstep]
      exact blockifyLoop_spec name m cb N hm hN hcb rows hrows hrowlen rest'
        (p + 1) st2 hrest' (by omega) h2ri h2rr h2bc h2wl h2good h2grids
    · -- mid-stripe row: no flush
      have hlt : p % m + 1 < m := by omega
      have hp1 : p + 1 = p % m + 1 + m * (p / m) := by omega
      have hdiv1 : (p + 1) / m = p / m := by
        rw [hp1, Nat.add_mul_div_left _ _ hm, Nat.div_eq_of_lt hlt, Nat.zero_add]
      have hmod1 : (p + 1) % m = p % m + 1 := by
        rw [hp1, Nat.add_mul_mod_self_left]
        exact Nat.mod_eq_of_lt hlt
      have hstep : blockifyRow name m cb N st row = blockifyRowState m N st row := by
        rw [blockifyRow, if_neg (by rw [hst1ri]; omega)]
      set st1 := blockifyRowState m N st row with hst1
      have h1ri : st1.rowIndex = (p + 1) % m := by
        rw [hmod1, hst1, blockifyRowState, hri]
      have h1rr : st1.rowsRead = p + 1 := by
        rw [hst1, blockifyRowState, hrr]
      have h1bc : st1.blockCount = ((p + 1) / m) * cb := by
        rw [hdiv1, hst1, blockifyRowState]
        exact hbc
      have h1wl : st1.writes.length = ((p + 1) / m) * cb := by
        rw [hdiv1, hst1, blockifyRowState]
        exact hwl
      have h1good : ∀ s j, s < (p + 1) / m → j < cb →
          ∀ (hw : s * cb + j < st1.writes.length),
            GoodWrite name m cb N rows (st1.writes.get ⟨s * cb + j, hw⟩) s j m := by
        intro s j hs hj hw
        rw [hdiv1] at hs
        have hw0 : s * cb + j < st.writes.length := by
          have : st1.writes = st.writes := by rw [hst1, blockifyRowState]
          rw [this] at hw
          exact hw
        exact hgood s j hs hj hw0
      have h1grids : ∀ t k l, k < (p + 1) % m → l < m → t * m + l < N →
          st1.grids t k l = cellAt rows (((p + 1) / m) * m + k) (t * m + l) := by
        intro t k l hk hl htl
        rw [hmod1] at hk
        rw [hdiv1]
        have hg : st1.grids t k l
            = distributeRow m N row (p % m) st.grids t k l := by
          rw [hst1, blockifyRowState, hri]
        rw [hg, distributeRow_get m N hm row (p % m) st.grids t k l]
        by_cases hkm : k = p % m
        · rw [if_pos ⟨hkm, hl, htl⟩]
          have hpk : (p / m) * m + k = p := by
            have h9 : (p / m) * m = m * (p / m) := Nat.mul_comm _ m
            omega
          rw [hpk]
          show row.getD (t * m + l) 0 = cellAt rows p (t * m + l)
          rw [cellAt, hrowD]
        · rw [if_neg (by tauto)]
          exact hgrids t k l (by omega) hl htl
      rw [hstep]
      exact blockifyLoop_spec name m cb N hm hN hcb rows hrows hrowlen rest'
        (p + 1) st1 hrest' (by omega) h1ri h1rr h1bc h1wl h1good h1grids

theorem min_tile_full {m N i : Nat} (hm : 0 < m) (hi : i < N / m) :
    min m (N - i * m) = m := by
  have hdm := Nat.div_add_mod N m
  have hexp : (i + 1) * m = i * m + m := by ring
  have h1 : (i + 1) * m ≤ (N / m) * m := Nat.mul_le_mul_right m (by omega)
  have h2 : (N / m) * m = m * (N / m) := Nat.mul_comm _ m
  omega

theorem min_tile_last {m N : Nat} (hm : 0 < m) (hr : N % m ≠ 0) :
    min m (N - (N / m) * m) = N % m := by
  have hdm := Nat.div_add_mod N m
  have hmod : N % m < m := Nat.mod_lt _ hm
  have h2 : (N / m) * m = m * (N / m) := Nat.mul_comm _ m
  omega

/-- Success path of `Matrix::blockify`: with a non-zero tile side the
blockify of a well-formed `N × N` CSV writes `cb²` blocks, the block of
linear index `i·cb + j` holding the tile rows `[i·m, min(N, (i+1)·m))`
and columns `[j·m, min(N, (j+1)·m))` with its dimensions recorded from
the live counters. -/
theorem blockify_success (name : String) (T seed N : Nat) (rows : List (List Int))
    (hN : 0 < N) (hrows : rows.length = N)
    (hrowlen : ∀ row ∈ rows, row.length = N) (m cb : Nat)
    (hsome : blockDimensions T seed N = some (m, cb)) :
    ∃ ws, blockify name T seed N rows = some ws
      ∧ ws.length = cb * cb
      ∧ ∀ i j, i < cb → j < cb →
          ∀ (hw : i * cb + j < ws.length),
            (ws.get ⟨i * cb + j, hw⟩).owner = name
            ∧ (ws.get ⟨i * cb + j, hw⟩).idx = i * cb + j
            ∧ (ws.get ⟨i * cb + j, hw⟩).rowCount = min m (N - i * m)
            ∧ (ws.get ⟨i * cb + j, hw⟩).colCount = min m (N - j * m)
            ∧ ∀ k l, k < min m (N - i * m) → l < min m (N - j * m) →
                (ws.get ⟨i * cb + j, hw⟩).grid k l
                  = cellAt rows (i * m + k) (j * m + l) := by
  simp only [blockDimensions] at hsome
  by_cases hc : corrDown T (corrUp T seed) = 0
  · rw [if_pos hc] at hsome
    exact absurd hsome (by simp)
  · rw [if_neg hc] at hsome
    simp only [Option.some.injEq, Prod.mk.injEq] at hsome
    obtain ⟨hm1, hcb1⟩ := hsome
    have hm : 0 < m := by omega
    have hcb : cb = (N + m - 1) / m := by rw [← hcb1, hm1]
    obtain ⟨hc1, hc2, hc3, hc4, hc5⟩ := cb_facts hm hN hcb
    have hdm := Nat.div_add_mod N m
    have hmod : N % m < m := Nat.mod_lt _ hm
    obtain ⟨st', hloop, hri, hrr, hbc, hwl, hgood, hgrids⟩ :=
      blockifyLoop_spec name m cb N hm hN hcb rows hrows hrowlen rows 0 initBlockify
        (by simp) (by omega) (by simp [initBlockify]) (by simp [initBlockify])
        (by simp [initBlockify]) (by simp [initBlockify])
        (by intro s j hs hj hw; simp at hs) (by intro t k l hk; simp at hk)
    have hbd : blockDimensions T seed N = some (m, cb) := by
      simp only [blockDimensions]
      rw [if_neg hc]
      simp only [Option.some.injEq, Prod.mk.injEq]
      exact ⟨hm1, hcb1⟩
    by_cases hr : N % m = 0
    · -- no final partial stripe
      have hcbq := hc4 hr
      have hb : blockify name T seed N rows = some st'.writes := by
        rw [blockify, hbd]
        simp only [hloop]
        have hne : ¬ st'.rowIndex ≠ 0 := by rw [hri, hr]; simp
        rw [if_neg hne, if_pos (by rw [hrr]; omega)]
      refine ⟨st'.writes, hb, ?_, ?_⟩
      · rw [hwl, hcbq]
      · intro i j hi hj hw
        have hi' : i < N / m := by omega
        obtain ⟨g1, g2, g3, g4, g5⟩ := hgood i j hi' hj hw
        have hrc : min m (N - i * m) = m := min_tile_full hm hi'
        have hcc : colSize m cb N j = min m (N - j * m) :=
          colSize_eq_min hm hN hcb hj
        refine ⟨g1, g2, by rw [g3, hrc], by rw [g4, hcc], ?_⟩
        intro k l hk hl
        exact g5 k l (by omega) (by rw [hcc]; exact hl)
    · -- final partial stripe flushed after the loop
      have hcbq := hc5 hr
      have hwapp : blockify name T seed N rows
          = some (st'.writes ++ stripeWrites name m cb N st'.grids
              st'.blockCount st'.rowIndex) := by
        rw [blockify, hbd]
        simp only [hloop]
        have hne : st'.rowIndex ≠ 0 := by rw [hri]; exact hr
        rw [if_pos hne]
        have hrr2 : (writeToBuffer name m cb N st').rowsRead ≠ 0 := by
          rw [writeToBuffer]
          show st'.rowsRead ≠ 0
          rw [hrr]
          omega
        rw [if_pos hrr2]
        rfl
      refine ⟨_, hwapp, ?_, ?_⟩
      · rw [List.length_append, stripeWrites_length, hwl, hcbq]
        ring
      · intro i j hi hj hw
        by_cases hilt : i < N / m
        · have hidx : i * cb + j < st'.writes.length := by
            rw [hwl]
            have hle : (i + 1) * cb ≤ (N / m) * cb :=
              Nat.mul_le_mul_right cb (by omega)
            have hexp2 : (i + 1) * cb = i * cb + cb := by ring
            omega
          have hget : (st'.writes ++ stripeWrites name m cb N st'.grids
                st'.blockCount st'.rowIndex).get ⟨i * cb + j, hw⟩
              = st'.writes.get ⟨i * cb + j, hidx⟩ := by
            rw [List.get_eq_getElem, List.get_eq_getElem]
            exact List.getElem_append_left hidx
          rw [hget]
          obtain ⟨g1, g2, g3, g4, g5⟩ := hgood i j hilt hj hidx
          have hrc : min m (N - i * m) = m := min_tile_full hm hilt
          have hcc : colSize m cb N j = min m (N - j * m) :=
            colSize_eq_min hm hN hcb hj
          refine ⟨g1, g2, by rw [g3, hrc], by rw [g4, hcc], ?_⟩
          intro k l hk hl
          exact g5 k l (by omega) (by rw [hcc]; exact hl)
        · have hieq : i = N / m := by omega
          have hblen : st'.writes.length = i * cb := by rw [hwl, hieq]
          have hj2 : i * cb + j - st'.writes.length
              < (stripeWrites name m cb N st'.grids st'.blockCount
                  st'.rowIndex).length := by
            rw [stripeWrites_length]
            omega
          have hget : (st'.writes ++ stripeWrites name m cb N st'.grids
                st'.blockCount st'.rowIndex).get ⟨i * cb + j, hw⟩
              = { owner := name
                  idx := i * cb + j
                  grid := st'.grids j
                  rowCount := N % m
                  colCount := colSize m cb N j } := by
            rw [List.get_eq_getElem]
            rw [List.getElem_append_right (by omega : st'.writes.length ≤ i * cb + j)]
            rw [← List.get_eq_getElem _ ⟨_, hj2⟩, stripeWrites_get]
            have hsub : i * cb + j - st'.writes.length = j := by omega
            have hbc1 : st'.blockCount = i * cb := by rw [hbc, hieq]
            rw [hsub, hbc1, hri]
          rw [hget]
          have hrc : min m (N - i * m) = N % m := by
            rw [hieq]
            exact min_tile_last hm hr
          have hcc : colSize m cb N j = min m (N - j * m) :=
            colSize_eq_min hm hN hcb hj
          refine ⟨rfl, rfl, by rw [hrc], by rw [hcc], ?_⟩
          intro k l hk hl
          have hk2 : k < N % m := by omega
          have hl2 : l < colSize m cb N j := by rw [hcc]; exact hl
          have hlm : l < m := lt_of_lt_of_le hl2 (colSize_le hm)
          have hjl : j * m + l < N := colSize_bound hm hN hcb hj hl2
          show st'.grids j k l = _
          rw [hgrids j k l hk2 hlm hjl, hieq]

/-- Claim C7: for a non-empty well-formed `N × N` CSV, the tile side `m`
is the largest integer with `m² ≤ (BLOCK_SIZE · 1000) / sizeof(int)`
(computed by the seeded-and-corrected integer square root, for every
seed); blockify fails exactly when `m = 0`; on success it writes
`⌈N/m⌉²` blocks, the block of linear index `i·cb + j` holding the tile
covering rows `[i·m, min(N, (i+1)·m))` and columns
`[j·m, min(N, (j+1)·m))`, with the recorded dimensions taken from the
live counters. -/
theorem blockify_spec (name : String) (T seed N : Nat) (rows : List (List Int))
    (hN : 0 < N) (hrows : rows.length = N)
    (hrowlen : ∀ row ∈ rows, row.length = N) :
    ((corrDown T (corrUp T seed)) * (corrDown T (corrUp T seed)) ≤ T
      ∧ ∀ k, k * k ≤ T → k ≤ corrDown T (corrUp T seed))
    ∧ ((blockify name T seed N rows).isNone ↔ corrDown T (corrUp T seed) = 0)
    ∧ (∀ m cb, blockDimensions T seed N = some (m, cb) →
        ∃ ws, blockify name T seed N rows = some ws
          ∧ ws.length = cb * cb
          ∧ ∀ i j, i < cb → j < cb →
              ∀ (hw : i * cb + j < ws.length),
                (ws.get ⟨i * cb + j, hw⟩).owner = name
                ∧ (ws.get ⟨i * cb + j, hw⟩).idx = i * cb + j
                ∧ (ws.get ⟨i * cb + j, hw⟩).rowCount = min m (N - i * m)
                ∧ (ws.get ⟨i * cb + j, hw⟩).colCount = min m (N - j * m)
                ∧ ∀ k l, k < min m (N - i * m) → l < min m (N - j * m) →
                    (ws.get ⟨i * cb + j, hw⟩).grid k l
                      = cellAt rows (i * m + k) (j * m + l)) := by
  refine ⟨isqrt_correct T seed, ?_,
    blockify_success name T seed N rows hN hrows hrowlen⟩
  constructor
  · intro hnone
    by_contra hc
    have hbd : blockDimensions T seed N
        = some (corrDown T (corrUp T seed),
            (N + corrDown T (corrUp T seed) - 1) / corrDown T (corrUp T seed)) := by
      simp only [blockDimensions]
      rw [if_neg hc]
    obtain ⟨ws, hws, _⟩ :=
      blockify_success name T seed N rows hN hrows hrowlen _ _ hbd
    rw [hws] at hnone
    simp at hnone
  · intro hc
    rw [blockify]
    have hbd : blockDimensions T seed N = none := by
      simp only [blockDimensions]
      rw [if_pos hc]
    rw [hbd]
    rfl

/-- Claim C7 witness: a 3 × 3 CSV with `BLOCK_SIZE` capacity 16 cells
(`m = 4`), and seed 0. -/
theorem blockify_spec_witness :
    0 < 3 ∧ ([[1, 2, 3], [4, 5, 6], [7, 8, 9]] : List (List Int)).length = 3
    ∧ ((blockify "W" 16 0 3 [[1, 2, 3], [4, 5, 6], [7, 8, 9]]).isNone
        ↔ corrDown 16 (corrUp 16 0) = 0) :=
  ⟨by decide, by decide,
    (blockify_spec "W" 16 0 3 [[1, 2, 3], [4, 5, 6], [7, 8, 9]] (by decide)
      (by decide) (by decide)).2.1⟩

/-! ### Theorems: table sort -/

theorem rowLe_total : ∀ (keys : List (Nat × Int)) (a b : List Int),
    rowLe keys a b || rowLe keys b a
  | [], _, _ => rfl
  | (c, mult) :: ks, a, b => by
    rw [rowLe, rowLe]
    by_cases hxy : a.getD c 0 = b.getD c 0
    · rw [if_pos hxy, if_pos hxy.symm]
      exact rowLe_total ks a b
    · rw [if_neg hxy,
        if_neg (show ¬ b.getD c 0 = a.getD c 0 from fun h => hxy h.symm)]
      by_cases hm : mult = 1
      · rw [if_pos hm, if_pos hm]
        rcases lt_or_gt_of_ne hxy with h | h
        · rw [decide_eq_true h, Bool.true_or]
        · rw [decide_eq_true h, Bool.or_true]
      · rw [if_neg hm, if_neg hm]
        rcases lt_or_gt_of_ne hxy with h | h
        · rw [decide_eq_true h, Bool.or_true]
        · rw [decide_eq_true h, Bool.true_or]

theorem rowLe_trans : ∀ (keys : List (Nat × Int)) (a b c : List Int),
    rowLe keys a b → rowLe keys b c → rowLe keys a c
  | [], _, _, _, _, _ => rfl
  | (col, mult) :: ks, a, b, c, hab, hbc => by
    rw [rowLe] at hab hbc ⊢
    by_cases hxy : a.getD col 0 = b.getD col 0
    · rw [if_pos hxy] at hab
      by_cases hyz : b.getD col 0 = c.getD col 0
      · rw [if_pos hyz] at hbc
        rw [if_pos (hxy.trans hyz)]
        exact rowLe_trans ks a b c hab hbc
      · rw [if_neg hyz] at hbc
        have hxz : ¬ a.getD col 0 = c.getD col 0 := by rw [hxy]; exact hyz
        rw [if_neg hxz, hxy]
        exact hbc
    · rw [if_neg hxy] at hab
      by_cases hyz : b.getD col 0 = c.getD col 0
      · have hxz : ¬ a.getD col 0 = c.getD col 0 := by rw [← hyz]; exact hxy
        rw [if_neg hxz, ← hyz]
        exact hab
      · rw [if_neg hyz] at hbc
        by_cases hm : mult = 1
        · rw [if_pos hm] at hab hbc
          have h1 : a.getD col 0 < b.getD col 0 := of_decide_eq_true hab
          have h2 : b.getD col 0 < c.getD col 0 := of_decide_eq_true hbc
          have hxz : ¬ a.getD col 0 = c.getD col 0 := by omega
          rw [if_neg hxz, if_pos hm]
          exact decide_eq_true (by omega)
        · rw [if_neg hm] at hab hbc
          have h1 : b.getD col 0 < a.getD col 0 := of_decide_eq_true hab
          have h2 : c.getD col 0 < b.getD col 0 := of_decide_eq_true hbc
          have hxz : ¬ a.getD col 0 = c.getD col 0 := by omega
          rw [if_neg hxz, if_neg hm]
          exact decide_eq_true (by omega)

theorem sortingPhase_flatten_perm (keys : List (Nat × Int)) :
    ∀ blocks : List (List (List Int)),
      (sortingPhase keys blocks).flatten.Perm blocks.flatten
  | [] => List.Perm.refl _
  | b :: bs => by
    simp only [sortingPhase, List.map_cons, List.flatten_cons]
    exact (List.mergeSort_perm b (rowLe keys)).append
      (sortingPhase_flatten_perm keys bs)

theorem mergePairs_flatten_perm (keys : List (Nat × Int)) :
    ∀ runs : List (List (List Int)),
      (mergePairs keys runs).flatten.Perm runs.flatten
  | [] => List.Perm.refl _
  | [_] => List.Perm.refl _
  | a :: b :: rest => by
    rw [mergePairs]
    simp only [List.flatten_cons]
    exact ((List.merge_perm_append (rowLe keys)).append
        (mergePairs_flatten_perm keys rest)).trans
      (List.Perm.of_eq (List.append_assoc a b rest.flatten))

theorem mergePasses_flatten_perm (keys : List (Nat × Int)) :
    ∀ (fuel : Nat) (runs : List (List (List Int))),
      (mergePasses keys fuel runs).flatten.Perm runs.flatten
  | 0, _ => List.Perm.refl _
  | fuel + 1, runs => by
    rw [mergePasses]
    by_cases h : runs.length ≤ 1
    · rw [if_pos h]
    · rw [if_neg h]
      exact (mergePasses_flatten_perm keys fuel (mergePairs keys runs)).trans
        (mergePairs_flatten_perm keys runs)

theorem tableSort_perm (keys : List (Nat × Int)) (blocks : List (List (List Int))) :
    (tableSort keys blocks).Perm blocks.flatten := by
  rw [tableSort]
  exact (mergePasses_flatten_perm keys _ _).trans (sortingPhase_flatten_perm keys blocks)

theorem mergePairs_runs_sorted (keys : List (Nat × Int)) :
    ∀ runs : List (List (List Int)),
      (∀ r ∈ runs, r.Pairwise (fun a b => rowLe keys a b)) →
      ∀ r ∈ mergePairs keys runs, r.Pairwise (fun a b => rowLe keys a b)
  | [], _, r, hr => by simp [mergePairs] at hr
  | [q], h, r, hr => by
    rw [mergePairs] at hr
    exact h r hr
  | a :: b :: rest, h, r, hr => by
    rw [mergePairs] at hr
    rcases List.mem_cons.1 hr with rfl | hr
    · exact List.sorted_merge
        (fun x y z hxy hyz => rowLe_trans keys x y z hxy hyz)
        (fun x y => rowLe_total keys x y) a b
        (h a (by simp)) (h b (by simp))
    · exact mergePairs_runs_sorted keys rest
        (fun q hq => h q (by simp [hq])) r hr

theorem mergePasses_runs_sorted (keys : List (Nat × Int)) :
    ∀ (fuel : Nat) (runs : List (List (List Int))),
      (∀ r ∈ runs, r.Pairwise (fun a b => rowLe keys a b)) →
      ∀ r ∈ mergePasses keys fuel runs, r.Pairwise (fun a b => rowLe keys a b)
  | 0, _, h => h
  | fuel + 1, runs, h => by
    rw [mergePasses]
    by_cases hl : runs.length ≤ 1
    · rw [if_pos hl]
      exact h
    · rw [if_neg hl]
      exact mergePasses_runs_sorted keys fuel (mergePairs keys runs)
        (mergePairs_runs_sorted keys runs h)

theorem mergePairs_length (keys : List (Nat × Int)) :
    ∀ runs : List (List (List Int)),
      (mergePairs keys runs).length = (runs.length + 1) / 2
  | [] => rfl
  | [_] => by simp [mergePairs]
  | a :: b :: rest => by
    rw [mergePairs]
    simp only [List.length_cons, mergePairs_length keys rest]
    omega

theorem mergePasses_length (keys : List (Nat × Int)) :
    ∀ (fuel : Nat) (runs : List (List (List Int))),
      runs.length ≤ fuel → (mergePasses keys fuel runs).length ≤ 1
  | 0, runs, h => by
    rw [mergePasses]
    omega
  | fuel + 1, runs, h => by
    rw [mergePasses]
    by_cases hl : runs.length ≤ 1
    · rw [if_pos hl]
      exact hl
    · rw [if_neg hl]
      apply mergePasses_length keys fuel
      rw [mergePairs_length keys runs]
      omega

theorem tableSort_sorted (keys : List (Nat × Int)) (blocks : List (List (List Int))) :
    (tableSort keys blocks).Pairwise (fun a b => rowLe keys a b) := by
  rw [tableSort]
  have hall : ∀ r ∈ sortingPhase keys blocks,
      r.Pairwise (fun a b => rowLe keys a b) := by
    intro r hr
    rw [sortingPhase] at hr
    obtain ⟨b, _, rfl⟩ := List.mem_map.1 hr
    exact List.sorted_mergeSort
      (fun x y z hxy hyz => rowLe_trans keys x y z hxy hyz)
      (fun x y => rowLe_total keys x y) b
  have hsorted := mergePasses_runs_sorted keys blocks.length
    (sortingPhase keys blocks) hall
  have hlen : (mergePasses keys blocks.length (sortingPhase keys blocks)).length ≤ 1 := by
    apply mergePasses_length keys blocks.length
    rw [sortingPhase, List.length_map]
  cases hres : mergePasses keys blocks.length (sortingPhase keys blocks) with
  | nil => simp
  | cons r rs =>
    have hrs : rs = [] := by
      rw [hres] at hlen
      simp only [List.length_cons] at hlen
      exact List.length_eq_zero.1 (by omega)
    subst hrs
    simp only [List.flatten_cons, List.flatten_nil, List.append_nil]
    apply hsorted r
    rw [hres]
    exact List.mem_cons_self _ _

theorem mergePairs_flatten_of_sorted (keys : List (Nat × Int)) :
    ∀ runs : List (List (List Int)),
      runs.flatten.Pairwise (fun a b => rowLe keys a b) →
      (mergePairs keys runs).flatten = runs.flatten
  | [], _ => rfl
  | [_], _ => rfl
  | a :: b :: rest, h => by
    rw [mergePairs]
    simp only [List.flatten_cons] at h ⊢
    obtain ⟨ha, hbf, hcross⟩ := List.pairwise_append.1 h
    have hmerge : List.merge a b (rowLe keys) = a ++ b :=
      List.merge_of_le (fun x y hx hy =>
        hcross x hx y (List.mem_append_left _ hy))
    have hrest : (mergePairs keys rest).flatten = rest.flatten :=
      mergePairs_flatten_of_sorted keys rest (List.pairwise_append.1 hbf).2.1
    rw [hmerge, hrest, List.append_assoc]

theorem mergePasses_flatten_of_sorted (keys : List (Nat × Int)) :
    ∀ (fuel : Nat) (runs : List (List (List Int))),
      runs.flatten.Pairwise (fun a b => rowLe keys a b) →
      (mergePasses keys fuel runs).flatten = runs.flatten
  | 0, _, _ => rfl
  | fuel + 1, runs, h => by
    rw [mergePasses]
    by_cases hl : runs.length ≤ 1
    · rw [if_pos hl]
    · rw [if_neg hl]
      have hmp := mergePairs_flatten_of_sorted keys runs h
      rw [mergePasses_flatten_of_sorted keys fuel (mergePairs keys runs)
        (by rw [hmp]; exact h), hmp]

theorem tableSort_of_sorted (keys : List (Nat × Int)) (blocks2 : List (List (List Int)))
    (h : blocks2.flatten.Pairwise (fun a b => rowLe keys a b)) :
    tableSort keys blocks2 = blocks2.flatten := by
  rw [tableSort]
  have hsp : sortingPhase keys blocks2 = blocks2 := by
    rw [sortingPhase]
    calc blocks2.map (fun b => b.mergeSort (rowLe keys))
        = blocks2.map (fun b => b) := by
          apply List.map_congr_left
          intro b hb
          exact List.mergeSort_of_sorted ((List.pairwise_flatten.1 h).1 b hb)
      _ = blocks2 := List.map_id' blocks2
  rw [hsp]
  have hlen2 : blocks2.length = (sortingPhase keys blocks2).length := by
    rw [hsp]
  exact mergePasses_flatten_of_sorted keys blocks2.length blocks2 h

/-- Claim C3: the external-merge sort preserves the multiset of rows,
orders the rows lexicographically by the key vector with each key's
`±1` direction honoured, and running it again on any block partition of
its own output (in particular the sorted table's blocks) returns the
same row sequence. -/
theorem sort_spec (keys : List (Nat × Int)) (blocks : List (List (List Int))) :
    (tableSort keys blocks).Perm blocks.flatten
    ∧ (tableSort keys blocks).Pairwise (fun a b => rowLe keys a b)
    ∧ ∀ blocks2 : List (List (List Int)),
        blocks2.flatten = tableSort keys blocks →
        tableSort keys blocks2 = tableSort keys blocks := by
  refine ⟨tableSort_perm keys blocks, tableSort_sorted keys blocks, ?_⟩
  intro blocks2 h2
  rw [tableSort_of_sorted keys blocks2 (by rw [h2]; exact tableSort_sorted keys blocks), h2]

/-- Claim C3 witness: the idempotence implication instantiated at a
concrete table. -/
theorem sort_spec_witness :
    (([] : List (List (List Int))).flatten = tableSort [(0, 1)] [])
    ∧ tableSort [(0, 1)] [] = tableSort [(0, 1)] [] :=
  ⟨rfl, (sort_spec [(0, 1)] []).2.2 [] rfl⟩

/-! ### Theorems: exception behaviour -/

theorem corr_one : corrDown 1 (corrUp 1 0) = 1 := by
  have h1 : corrUp 1 0 = 1 := by
    rw [corrUp]
    norm_num
    rw [corrUp]
    norm_num
  rw [h1, corrDown]
  norm_num

/-- Claim C9 counterexample: a non-integer cell makes `stoi` throw
`std::invalid_argument`, and nothing in `Matrix::blockify` catches it,
so the exception unwinds out of the load — the claim that no core
operation propagates an unwinding exception for any input is false. -/
theorem blockify_throws_on_nonint :
    blockifyE 1 0 2 [["1", "x"], ["1", "1"]]
      = Except.error "invalid_argument" := by
  rw [blockifyE, if_neg (by rw [corr_one]; omega)]
  rfl

/-- A numeric cell whose value does not fit in `int` likewise unwinds
out of `Matrix::blockify`: `stoi` throws `std::out_of_range` and no
enclosing frame has a handler. -/
theorem blockify_throws_on_overflow :
    blockifyE 1 0 1 [["2147483648"]] = Except.error "out_of_range" := by
  rw [blockifyE, if_neg (by rw [corr_one]; omega)]
  rfl

theorem parseCellsE_ok : ∀ (d : Nat) (cells : List String),
    (∀ w ∈ cells, stoiOk w) → ∃ b, parseCellsE d cells = .ok b
  | 0, _, _ => ⟨true, rfl⟩
  | _ + 1, [], _ => ⟨false, rfl⟩
  | d + 1, w :: ws, h => by
    rw [parseCellsE]
    have hw : stoiOk w := h w (by simp)
    cases hs : stoiModel w with
    | error e =>
      exfalso
      simp [stoiOk, hs] at hw
    | ok v =>
      simp only [hs]
      exact parseCellsE_ok d ws (fun x hx => h x (by simp [hx]))

theorem blockifyLoopE_ok : ∀ (d : Nat) (rows : List (List String)),
    (∀ row ∈ rows, ∀ w ∈ row, stoiOk w) → ∃ b, blockifyLoopE d rows = .ok b
  | _, [], _ => ⟨true, rfl⟩
  | d, row :: rest, h => by
    rw [blockifyLoopE]
    obtain ⟨b, hb⟩ := parseCellsE_ok d row (h row (by simp))
    simp only [hb]
    cases b with
    | false => exact ⟨false, rfl⟩
    | true => exact blockifyLoopE_ok d rest (fun r hr => h r (by simp [hr]))

/-- Claim C9 (amended): every failure path of the core other than a
cell on which `stoi` throws (non-integer, or numeric but outside
`int`'s range) is value-returned — a too-short row, a too-small block
size and an empty file all return `false` from `blockify` without an
exception; when every cell parses to an in-range `int`, `blockify`
returns a boolean and no exception escapes. -/
theorem blockify_no_throw_on_parseable (T seed dimension : Nat)
    (rows : List (List String)) (h : ∀ row ∈ rows, ∀ w ∈ row, stoiOk w) :
    ∃ b, blockifyE T seed dimension rows = .ok b := by
  rw [blockifyE]
  by_cases hc : corrDown T (corrUp T seed) = 0
  · rw [if_pos hc]
    exact ⟨false, rfl⟩
  · rw [if_neg hc]
    obtain ⟨b, hb⟩ := blockifyLoopE_ok dimension rows h
    simp only [hb]
    cases b with
    | false => exact ⟨false, rfl⟩
    | true =>
      by_cases hr : rows.length ≠ 0
      · rw [if_pos hr]
        exact ⟨true, rfl⟩
      · rw [if_neg hr]
        exact ⟨false, rfl⟩

/-- Claim C9 witness: a parseable table (with one short row still
value-returned, not thrown). -/
theorem blockify_no_throw_witness :
    (∀ row ∈ [["1", "2"], ["3"]], ∀ w ∈ row, stoiOk w)
    ∧ ∃ b, blockifyE 1 0 2 [["1", "2"], ["3"]] = .ok b :=
  ⟨by decide, blockify_no_throw_on_parseable 1 0 2 _ (by decide)⟩

/-- Claim C10: the assignment-form constructor `Matrix(name, original)`
copies the original's dimension, block count, tile side `m`,
`concurrentBlocks`, per-block dimensions and the cached `symmetric`
verdict, and installs the new name. -/
theorem matrixAssign_copies (nm : String) (orig : MatrixMeta) :
    (matrixAssign nm orig).dimension = orig.dimension
    ∧ (matrixAssign nm orig).blockCount = orig.blockCount
    ∧ (matrixAssign nm orig).m = orig.m
    ∧ (matrixAssign nm orig).concurrentBlocks = orig.concurrentBlocks
    ∧ (matrixAssign nm orig).dimsPerBlock = orig.dimsPerBlock
    ∧ (matrixAssign nm orig).symmetric = orig.symmetric
    ∧ (matrixAssign nm orig).matrixName = nm :=
  ⟨rfl, rfl, rfl, rfl, rfl, rfl, rfl⟩

end RelDB
